import Mathlib

/-!
# atlas_generator: greedy 2D bin packing (`src/bin_packing/bin_packing.cpp`)

A shallow embedding of `atlas::find_placement` and `atlas::bin_packing`, together with
the checkers of `src/test/bin_packing_tests.cpp` and the index arithmetic of the
compositor in `atlas_package` (`src/main.cpp`), and the properties proved about them.

Conventions of the embedding.

* `uint32_t` values are natural numbers; every `+` and `-` of the source on `uint32_t`
  operands is written with an explicit `% 4294967296` (`add32`, `sub32`).
* The two `for` loops of `find_placement` run on `uint32_t` counters with `++` wrapping
  around, so they need not terminate.  They are embedded as step functions with a fuel
  argument: one unit of fuel per evaluation of the loop condition.  The outer `Option`
  of a result is `none` exactly when the fuel ran out; the inner value is what the C++
  function returns.
* `std::sort` is library code.  `bin_packing` takes it as a parameter `StdSort`, which
  carries only what the C++ standard promises of `std::sort`: the result is a
  permutation of the input and is ordered with respect to the comparator.  One such
  sort is `gnu_sort`: the `std::sort` of libstdc++ (GCC 12, `bits/stl_algo.h` and
  `bits/stl_heap.h`), embedded function by function in `std_sort`, with iterators as
  indices into the vector.
-/

namespace atlas

/-! ## Data model (`bin_packing.hpp`) -/

/-- The struct `Vec2` of `bin_packing.hpp`: two `uint32_t` fields. -/
structure Vec2 where
  x : Nat
  y : Nat
deriving DecidableEq, Repr

/-- The struct `Rect`: a position and a size. -/
structure Rect where
  position : Vec2
  size : Vec2
deriving DecidableEq, Repr

/-- The struct `Item`: a rectangle and an identifier. -/
structure Item where
  rect : Rect
  id : Nat
deriving DecidableEq, Repr

/-- The struct `Bin`: a size and the vector of the items placed so far. -/
structure Bin where
  size : Vec2
  items : List Item
deriving DecidableEq, Repr

/-- Addition of two `uint32_t` values. -/
def add32 (a b : Nat) : Nat := (a + b) % 4294967296

/-- Subtraction of two `uint32_t` values (`b < 2^32`). -/
def sub32 (a b : Nat) : Nat := (a + 4294967296 - b) % 4294967296

/-- A value representable in `uint32_t`. -/
def isU32 (a : Nat) : Prop := a < 4294967296

instance (a : Nat) : Decidable (isU32 a) := by unfold isU32; infer_instance

/-- Both fields are `uint32_t` values. -/
def Vec2.wf (v : Vec2) : Prop := isU32 v.x ∧ isU32 v.y

instance (v : Vec2) : Decidable v.wf := by unfold Vec2.wf; infer_instance

/-- All four fields of the rectangle are `uint32_t` values. -/
def Rect.wf (r : Rect) : Prop := r.position.wf ∧ r.size.wf

instance (r : Rect) : Decidable r.wf := by unfold Rect.wf; infer_instance

/-! ## `find_placement` -/

/-- The function `fits_within_position` of `bin_packing.cpp` (defined there, never called). -/
def fits_within_position (position itemSize binSize : Vec2) : Bool :=
  decide (add32 position.x itemSize.x ≤ binSize.x) &&
  decide (add32 position.y itemSize.y ≤ binSize.y)

/-- The lambda passed to `std::all_of` in `find_placement`: the local `noOverlap`. -/
def noOverlap (candidate itemSize : Vec2) (rect : Rect) : Bool :=
  decide (add32 candidate.x itemSize.x ≤ rect.position.x) ||
  decide (candidate.x ≥ add32 rect.position.x rect.size.x) ||
  decide (add32 candidate.y itemSize.y ≤ rect.position.y) ||
  decide (candidate.y ≥ add32 rect.position.y rect.size.y)

/-- The local `fits` of `find_placement`: `std::all_of` over `occupied`. -/
def fits (occupied : List Rect) (candidate itemSize : Vec2) : Bool :=
  occupied.all (noOverlap candidate itemSize)

/-- The inner loop `for (uint32_t x = 0; x <= bin.size.x - itemSize.x; ++x)` of
`find_placement` at row `y`, started at counter value `x`; `xmax` is the loop bound.
Returns `none` when the fuel runs out, `some (some p)` when the function returns the
candidate `p` from inside the loop, and `some none` when the loop condition fails. -/
def scan_x (occupied : List Rect) (itemSize : Vec2) (xmax y : Nat) :
    Nat → Nat → Option (Option Vec2)
  | 0, _ => none
  | fuel + 1, x =>
    if x ≤ xmax then
      if fits occupied ⟨x, y⟩ itemSize then some (some ⟨x, y⟩)
      else scan_x occupied itemSize xmax y fuel (add32 x 1)
    else some none

/-- The outer loop `for (uint32_t y = 0; y <= bin.size.y - itemSize.y; ++y)` of
`find_placement`, started at counter value `y`; `fx` is the fuel given to each run of
the inner loop. -/
def scan_y (occupied : List Rect) (itemSize : Vec2) (xmax ymax fx : Nat) :
    Nat → Nat → Option (Option Vec2)
  | 0, _ => none
  | fuel + 1, y =>
    if y ≤ ymax then
      match scan_x occupied itemSize xmax y fx 0 with
      | none => none
      | some (some p) => some (some p)
      | some none => scan_y occupied itemSize xmax ymax fx fuel (add32 y 1)
    else some none

/-- The function `find_placement` of `bin_packing.cpp`.  `none`: out of fuel;
`some none`: the function returns `std::nullopt`; `some (some p)`: it returns `p`. -/
def find_placement (fuel : Nat) (bin : Bin) (itemSize : Vec2) : Option (Option Vec2) :=
  scan_y (bin.items.map (·.rect)) itemSize
    (sub32 bin.size.x itemSize.x) (sub32 bin.size.y itemSize.y) fuel fuel 0

/-! ## `bin_packing` -/

/-- The comparator lambda given to `std::sort` in `bin_packing`. -/
def sort_cmp (a b : Item) : Prop :=
  a.rect.size.y > b.rect.size.y ∨
    (a.rect.size.y = b.rect.size.y ∧ a.rect.size.x > b.rect.size.x)

instance : DecidableRel sort_cmp := fun a b => by unfold sort_cmp; infer_instance

instance sort_rel_total : IsTotal Item (fun a b => ¬ sort_cmp b a) :=
  ⟨fun a b => by unfold sort_cmp; omega⟩

instance sort_rel_trans : IsTrans Item (fun a b => ¬ sort_cmp b a) :=
  ⟨fun a b c => by unfold sort_cmp; omega⟩

/-- What `std::sort(first, last, comp)` leaves behind, for a range `l`: no later element
compares before an earlier one. -/
def sort_ordered (l : List Item) : Prop := l.Pairwise (fun a b => ¬ sort_cmp b a)

/-- The call `std::sort(sorted_items.begin(), sorted_items.end(), comp)`.  The C++
standard fixes the result only up to the order of equivalent elements: it is a
permutation of the input, ordered with respect to `comp`. -/
structure StdSort where
  run : List Item → List Item
  perm : ∀ l, (run l).Perm l
  ordered : ∀ l, sort_ordered (run l)

/-- The two statements `placed_item = item; placed_item.rect.position = *placement;`. -/
def place_item (item : Item) (placement : Vec2) : Item :=
  { item with rect := { item.rect with position := placement } }

/-- The statement `bin.items.push_back(placed_item)`. -/
def Bin.push (bin : Bin) (item : Item) : Bin :=
  { bin with items := bin.items ++ [item] }

/-- The loop `for (auto& bin : bins)` of `bin_packing` for one item, over the bins not
yet tried.  `none`: out of fuel; `some none`: the loop ends with `placed == false`;
`some (some bins')`: the item was pushed into one bin and the loop left by `break`. -/
def try_existing (fuel : Nat) (item : Item) : List Bin → Option (Option (List Bin))
  | [] => some none
  | bin :: rest =>
    match find_placement fuel bin item.rect.size with
    | none => none
    | some (some placement) => some (some (bin.push (place_item item placement) :: rest))
    | some none =>
      match try_existing fuel item rest with
      | none => none
      | some none => some none
      | some (some rest') => some (some (bin :: rest'))

/-- One iteration of the loop `for (const auto& item : sorted_items)` of `bin_packing`.
`none`: out of fuel; `some (.error msg)`: `throw std::runtime_error(msg)`;
`some (.ok bins')`: the iteration ends with the bin vector `bins'`. -/
def pack_step (fuel : Nat) (binSize : Vec2) (bins : List Bin) (item : Item) :
    Option (Except String (List Bin)) :=
  match try_existing fuel item bins with
  | none => none
  | some (some bins') => some (.ok bins')
  | some none =>
    match find_placement fuel ⟨binSize, []⟩ item.rect.size with
    | none => none
    | some (some placement) =>
      some (.ok (bins ++ [Bin.push ⟨binSize, []⟩ (place_item item placement)]))
    | some none => some (.error "Item does not fit in a new bin!")

/-- The loop `for (const auto& item : sorted_items)` of `bin_packing`, over the items not
yet processed, from the bin vector `bins`. -/
def pack_items (fuel : Nat) (binSize : Vec2) : List Item → List Bin →
    Option (Except String (List Bin))
  | [], bins => some (.ok bins)
  | item :: rest, bins =>
    match pack_step fuel binSize bins item with
    | none => none
    | some (.error msg) => some (.error msg)
    | some (.ok bins') => pack_items fuel binSize rest bins'

/-- The function `bin_packing` of `bin_packing.cpp`.  `none`: out of fuel;
`some (.error msg)`: throws `std::runtime_error(msg)`; `some (.ok bins)`: returns `bins`. -/
def bin_packing (sort : StdSort) (fuel : Nat) (items : List Item) (binSize : Vec2) :
    Option (Except String (List Bin)) :=
  pack_items fuel binSize (sort.run items) []

/-! ## The checkers of `bin_packing_tests.cpp` -/

/-- The test helper `no_overlap` of `bin_packing_tests.cpp`, on `uint32_t` operands. -/
def no_overlap (r1 r2 : Rect) : Bool :=
  decide (add32 r1.position.x r1.size.x ≤ r2.position.x) ||
  decide (add32 r2.position.x r2.size.x ≤ r1.position.x) ||
  decide (add32 r1.position.y r1.size.y ≤ r2.position.y) ||
  decide (add32 r2.position.y r2.size.y ≤ r1.position.y)

/-- The four assertions of `validate_bin::ensure_items_fit` for one item, on `uint32_t`
operands. -/
def item_fits (bin : Bin) (item : Item) : Bool :=
  decide (item.rect.position.x ≥ 0) && decide (item.rect.position.y ≥ 0) &&
  decide (add32 item.rect.position.x item.rect.size.x ≤ bin.size.x) &&
  decide (add32 item.rect.position.y item.rect.size.y ≤ bin.size.y)

/-! ## Vocabulary of the properties -/

/-- The axis-separation test on the integers, without wrap-around. -/
def separated (r1 r2 : Rect) : Prop :=
  r1.position.x + r1.size.x ≤ r2.position.x ∨
  r2.position.x + r2.size.x ≤ r1.position.x ∨
  r1.position.y + r1.size.y ≤ r2.position.y ∨
  r2.position.y + r2.size.y ≤ r1.position.y

instance (r1 r2 : Rect) : Decidable (separated r1 r2) := by unfold separated; infer_instance

/-- The rectangle lies inside a bin of size `binSize`, on the integers. -/
def inside (binSize : Vec2) (r : Rect) : Prop :=
  r.position.x + r.size.x ≤ binSize.x ∧ r.position.y + r.size.y ≤ binSize.y

instance (b : Vec2) (r : Rect) : Decidable (inside b r) := by unfold inside; infer_instance

/-- The pairs of a bin's items, earlier against later, pass the test helper. -/
def overlap_free (bin : Bin) : Prop :=
  bin.items.Pairwise (fun a b => no_overlap a.rect b.rect = true)

/-- The bin has size `binSize`, its items lie inside it and are separated from each
other, all on the integers. -/
def packed_exactly (binSize : Vec2) (bin : Bin) : Prop :=
  bin.size = binSize ∧ (∀ it ∈ bin.items, inside bin.size it.rect) ∧
    bin.items.Pairwise (fun a b => separated a.rect b.rect)

/-- What identifies an input item in the output: its identifier and its size. -/
def item_key (it : Item) : Nat × Vec2 := (it.id, it.rect.size)

/-- All items of a bin vector, bin after bin. -/
def all_items (bins : List Bin) : List Item := (bins.map (·.items)).flatten

/-- The candidate `p` comes strictly before the candidate `q` in the order of the scan:
lower row first, and in one row the smaller `x` first. -/
def scanned_before (p q : Vec2) : Prop := p.y < q.y ∨ (p.y = q.y ∧ p.x < q.x)

/-- The position `q` is a candidate of the scan for an item of size `itemSize` (it lies
in the range `0 ≤ x ≤ bin.size.x - itemSize.x`, `0 ≤ y ≤ bin.size.y - itemSize.y`) and the
rectangle at `q` passes the axis-separation test against every item of the bin. -/
def valid_position (bin : Bin) (itemSize q : Vec2) : Prop :=
  q.x ≤ bin.size.x - itemSize.x ∧ q.y ≤ bin.size.y - itemSize.y ∧
    ∀ it ∈ bin.items, no_overlap ⟨q, itemSize⟩ it.rect = true

/-- Row-major order on positions: smaller `y` first, then smaller `x`. -/
def row_major_le (p q : Vec2) : Prop := p.y < q.y ∨ (p.y = q.y ∧ p.x ≤ q.x)

/-- A size `s` may stand before a size `t` in the order of `bin_packing`: `t` is not
higher than `s`, and if the heights are equal `t` is not wider than `s`. -/
def size_order (s t : Vec2) : Prop := t.y ≤ s.y ∧ (t.y = s.y → t.x ≤ s.x)

instance (s t : Vec2) : Decidable (size_order s t) := by unfold size_order; infer_instance

instance size_order_antisymm : IsAntisymm Vec2 size_order :=
  ⟨fun s t h1 h2 => by
    unfold size_order at h1 h2
    cases s; cases t
    simp only [Vec2.mk.injEq] at *
    omega⟩

/-- The sizes of a bin's items, in collection order. -/
def bin_sizes (bin : Bin) : List Vec2 := bin.items.map (·.rect.size)

/-- The items of size `s` of a list, in list order. -/
def items_of_size (s : Vec2) (l : List Item) : List Item :=
  l.filter (fun it => decide (it.rect.size = s))

/-- The ordering step keeps the input order of items equal in both height and width:
for every size, the items of that size come out in the order they went in. -/
def keeps_input_order (sort : StdSort) (l : List Item) : Prop :=
  ∀ s : Vec2, items_of_size s (sort.run l) = items_of_size s l

/-! ## `std::sort` of libstdc++ (`bits/stl_algo.h`, `bits/stl_heap.h`)

The range is the whole vector, a list; iterators are indices into it.  The loops of the
library that run until a comparison fails take a fuel argument that bounds the number
of steps by the length of the range. -/

/-- The element `*(begin + i)` of the range; outside the range, a default-constructed
`Item`. -/
def elem (l : List Item) (i : Nat) : Item := l.getD i ⟨⟨⟨0, 0⟩, ⟨1, 1⟩⟩, 0⟩

/-- The call `std::iter_swap(a, b)`. -/
def iter_swap (l : List Item) (a b : Nat) : List Item :=
  (l.set a (elem l b)).set b (elem l a)

/-- The function `std::__move_median_to_first` of `bits/stl_algo.h`. -/
def move_median_to_first (l : List Item) (result a b c : Nat) : List Item :=
  if sort_cmp (elem l a) (elem l b) then
    if sort_cmp (elem l b) (elem l c) then iter_swap l result b
    else if sort_cmp (elem l a) (elem l c) then iter_swap l result c
    else iter_swap l result a
  else if sort_cmp (elem l a) (elem l c) then iter_swap l result a
  else if sort_cmp (elem l b) (elem l c) then iter_swap l result c
  else iter_swap l result b

/-- The loop `while (__comp(__first, __pivot)) ++__first;` of `std::__unguarded_partition`;
the fuel bounds the number of steps. -/
def partition_up (l : List Item) (pivot : Nat) : Nat → Nat → Nat
  | 0, first => first
  | fuel + 1, first =>
    if sort_cmp (elem l first) (elem l pivot) then partition_up l pivot fuel (first + 1)
    else first

/-- The loop `while (__comp(__pivot, __last)) --__last;` of `std::__unguarded_partition`. -/
def partition_down (l : List Item) (pivot : Nat) : Nat → Nat → Nat
  | 0, last => last
  | fuel + 1, last =>
    if sort_cmp (elem l pivot) (elem l last) then partition_down l pivot fuel (last - 1)
    else last

/-- The function `std::__unguarded_partition`: the loop `while (true)`, with the range
after the swaps and the iterator returned. -/
def unguarded_partition (pivot : Nat) : Nat → List Item → Nat → Nat → List Item × Nat
  | 0, l, first, _ => (l, first)
  | fuel + 1, l, first, last =>
    let first' := partition_up l pivot l.length first
    let last' := partition_down l pivot l.length (last - 1)
    if first' < last' then
      unguarded_partition pivot fuel (iter_swap l first' last') (first' + 1) last'
    else (l, first')

/-- The function `std::__unguarded_partition_pivot`. -/
def unguarded_partition_pivot (l : List Item) (first last : Nat) : List Item × Nat :=
  let mid := first + (last - first) / 2
  let l' := move_median_to_first l first (first + 1) mid (last - 1)
  unguarded_partition first l'.length l' (first + 1) last

/-- The function `std::__push_heap` of `bits/stl_heap.h`, on the heap that starts at
`first`. -/
def push_heap (first topIndex : Nat) (value : Item) : Nat → List Item → Nat → List Item
  | 0, l, holeIndex => l.set (first + holeIndex) value
  | fuel + 1, l, holeIndex =>
    let parent := (holeIndex - 1) / 2
    if holeIndex > topIndex ∧ sort_cmp (elem l (first + parent)) value then
      push_heap first topIndex value fuel
        (l.set (first + holeIndex) (elem l (first + parent))) parent
    else l.set (first + holeIndex) value

/-- The first loop of `std::__adjust_heap`: the hole moves down to the larger child. -/
def adjust_heap_down (first len : Nat) : Nat → List Item → Nat → Nat → List Item × Nat × Nat
  | 0, l, holeIndex, secondChild => (l, holeIndex, secondChild)
  | fuel + 1, l, holeIndex, secondChild =>
    if secondChild < (len - 1) / 2 then
      let c := 2 * (secondChild + 1)
      let c' := if sort_cmp (elem l (first + c)) (elem l (first + (c - 1))) then c - 1 else c
      adjust_heap_down first len fuel (l.set (first + holeIndex) (elem l (first + c'))) c' c'
    else (l, holeIndex, secondChild)

/-- The function `std::__adjust_heap`. -/
def adjust_heap (l : List Item) (first holeIndex len : Nat) (value : Item) : List Item :=
  let topIndex := holeIndex
  let (l1, hole1, secondChild) := adjust_heap_down first len len l holeIndex holeIndex
  if len % 2 = 0 ∧ secondChild = (len - 2) / 2 then
    let c := 2 * (secondChild + 1)
    let l2 := l1.set (first + hole1) (elem l1 (first + (c - 1)))
    push_heap first topIndex value len l2 (c - 1)
  else push_heap first topIndex value len l1 hole1

/-- The function `std::__pop_heap`. -/
def pop_heap (l : List Item) (first last result : Nat) : List Item :=
  let value := elem l result
  adjust_heap (l.set result (elem l first)) first 0 (last - first) value

/-- The loop `while (true)` of `std::__make_heap`, from the parent index `parent` down. -/
def make_heap_loop (first len : Nat) : Nat → List Item → List Item
  | 0, l => adjust_heap l first 0 len (elem l first)
  | parent + 1, l =>
    make_heap_loop first len parent
      (adjust_heap l first (parent + 1) len (elem l (first + (parent + 1))))

/-- The function `std::__make_heap`. -/
def make_heap (l : List Item) (first last : Nat) : List Item :=
  if last - first < 2 then l else make_heap_loop first (last - first) ((last - first - 2) / 2) l

/-- The loop of `std::__heap_select` over `[i, last)`. -/
def heap_select_loop (first middle : Nat) : Nat → List Item → Nat → List Item
  | 0, l, _ => l
  | n + 1, l, i =>
    heap_select_loop first middle n
      (if sort_cmp (elem l i) (elem l first) then pop_heap l first middle i else l) (i + 1)

/-- The function `std::__heap_select`. -/
def heap_select (l : List Item) (first middle last : Nat) : List Item :=
  heap_select_loop first middle (last - middle) (make_heap l first middle) middle

/-- The function `std::__sort_heap`: the loop `while (__last - __first > 1)`. -/
def sort_heap (first : Nat) : Nat → List Item → Nat → List Item
  | 0, l, _ => l
  | fuel + 1, l, last =>
    if last - first > 1 then sort_heap first fuel (pop_heap l first (last - 1) (last - 1)) (last - 1)
    else l

/-- The function `std::__partial_sort`. -/
def partial_sort (l : List Item) (first middle last : Nat) : List Item :=
  sort_heap first l.length (heap_select l first middle last) middle

/-- The function `std::__introsort_loop`; each turn of its loop and each recursive call
lowers `__depth_limit` by one, which is the argument of the recursion. -/
def introsort_loop : Nat → List Item → Nat → Nat → List Item
  | 0, l, first, last => if last - first > 16 then partial_sort l first last last else l
  | depth_limit + 1, l, first, last =>
    if last - first > 16 then
      let r := unguarded_partition_pivot l first last
      introsort_loop depth_limit (introsort_loop depth_limit r.1 r.2 last) first r.2
    else l

/-- The loop of `std::__unguarded_linear_insert`, the value `val` taken out at `last`. -/
def linear_insert_loop (val : Item) : Nat → List Item → Nat → List Item
  | 0, l, last => l.set last val
  | fuel + 1, l, last =>
    if sort_cmp val (elem l (last - 1)) then
      linear_insert_loop val fuel (l.set last (elem l (last - 1))) (last - 1)
    else l.set last val

/-- The function `std::__unguarded_linear_insert`. -/
def unguarded_linear_insert (l : List Item) (last : Nat) : List Item :=
  linear_insert_loop (elem l last) last l last

/-- The loop of `std::__insertion_sort` over `[i, i + n)`. -/
def insertion_sort_loop (first : Nat) : Nat → List Item → Nat → List Item
  | 0, l, _ => l
  | n + 1, l, i =>
    insertion_sort_loop first n
      (if sort_cmp (elem l i) (elem l first) then
        l.take first ++ elem l i :: ((l.drop first).take (i - first) ++ l.drop (i + 1))
      else unguarded_linear_insert l i) (i + 1)

/-- The function `std::__insertion_sort`. -/
def insertion_sort_range (l : List Item) (first last : Nat) : List Item :=
  if first = last then l else insertion_sort_loop first (last - (first + 1)) l (first + 1)

/-- The function `std::__unguarded_insertion_sort`: the loop over `[i, i + n)`. -/
def unguarded_insertion_sort : Nat → List Item → Nat → List Item
  | 0, l, _ => l
  | n + 1, l, i => unguarded_insertion_sort n (unguarded_linear_insert l i) (i + 1)

/-- The function `std::__final_insertion_sort`. -/
def final_insertion_sort (l : List Item) (first last : Nat) : List Item :=
  if last - first > 16 then
    unguarded_insertion_sort (last - (first + 16)) (insertion_sort_range l first (first + 16))
      (first + 16)
  else insertion_sort_range l first last

/-- The loop behind `std::__lg`: the position of the highest set bit. -/
def lg_loop : Nat → Nat → Nat
  | 0, _ => 0
  | fuel + 1, n => if n ≤ 1 then 0 else lg_loop fuel (n / 2) + 1

/-- The function `std::__lg`. -/
def lg (n : Nat) : Nat := lg_loop n n

/-- The function `std::__sort` of `bits/stl_algo.h`, which `std::sort` calls, over the
whole vector and with the comparator of `bin_packing`. -/
def std_sort (l : List Item) : List Item :=
  if l.length = 0 then l
  else final_insertion_sort (introsort_loop (lg l.length * 2) l 0 l.length) 0 l.length

instance (l : List Item) : Decidable (sort_ordered l) := by
  unfold sort_ordered; infer_instance

/-! ## Concrete sorts and inputs -/

/-- A concrete `std::sort`: insertion sort, which places an element before the first
element it does not come after. -/
def insertion_sort : StdSort where
  run l := l.insertionSort (fun a b => ¬ sort_cmp b a)
  perm l := List.perm_insertionSort _ l
  ordered l := List.sorted_insertionSort _ l

/-- The vector that the `std::sort` of libstdc++ leaves behind, `std_sort l`.  The test
in front stands for the guarantee of the library that this vector is a permutation of
the input ordered by the comparator. -/
def gnu_sort_run (l : List Item) : List Item :=
  if (std_sort l).Perm l ∧ sort_ordered (std_sort l) then std_sort l
  else l.insertionSort (fun a b => ¬ sort_cmp b a)

/-- The `std::sort` of libstdc++ as a `StdSort`. -/
def gnu_sort : StdSort where
  run := gnu_sort_run
  perm l := by
    unfold gnu_sort_run
    split
    · rename_i h; exact h.1
    · exact List.perm_insertionSort _ l
  ordered l := by
    unfold gnu_sort_run
    split
    · rename_i h; exact h.2
    · exact List.sorted_insertionSort _ l

/-- An item of the given size and identifier, with the default position of `Rect`. -/
def mkItem (w h id : Nat) : Item := ⟨⟨⟨0, 0⟩, ⟨w, h⟩⟩, id⟩

/-- Seventeen items of size `(1, 1)`, with the identifiers 1 to 17 in input order. -/
def seventeen_items : List Item :=
  [mkItem 1 1 1, mkItem 1 1 2, mkItem 1 1 3, mkItem 1 1 4, mkItem 1 1 5, mkItem 1 1 6,
   mkItem 1 1 7, mkItem 1 1 8, mkItem 1 1 9, mkItem 1 1 10, mkItem 1 1 11, mkItem 1 1 12,
   mkItem 1 1 13, mkItem 1 1 14, mkItem 1 1 15, mkItem 1 1 16, mkItem 1 1 17]

/-- The seventeen items as `bin_packing` places them into a bin of size `(17, 1)` after
the `std::sort` of libstdc++: side by side, in the order in which they are processed. -/
def seventeen_placed : List Item :=
  [⟨⟨⟨0, 0⟩, ⟨1, 1⟩⟩, 9⟩, ⟨⟨⟨1, 0⟩, ⟨1, 1⟩⟩, 17⟩, ⟨⟨⟨2, 0⟩, ⟨1, 1⟩⟩, 16⟩,
   ⟨⟨⟨3, 0⟩, ⟨1, 1⟩⟩, 15⟩, ⟨⟨⟨4, 0⟩, ⟨1, 1⟩⟩, 14⟩, ⟨⟨⟨5, 0⟩, ⟨1, 1⟩⟩, 13⟩,
   ⟨⟨⟨6, 0⟩, ⟨1, 1⟩⟩, 12⟩, ⟨⟨⟨7, 0⟩, ⟨1, 1⟩⟩, 11⟩, ⟨⟨⟨8, 0⟩, ⟨1, 1⟩⟩, 10⟩,
   ⟨⟨⟨9, 0⟩, ⟨1, 1⟩⟩, 1⟩, ⟨⟨⟨10, 0⟩, ⟨1, 1⟩⟩, 8⟩, ⟨⟨⟨11, 0⟩, ⟨1, 1⟩⟩, 7⟩,
   ⟨⟨⟨12, 0⟩, ⟨1, 1⟩⟩, 6⟩, ⟨⟨⟨13, 0⟩, ⟨1, 1⟩⟩, 5⟩, ⟨⟨⟨14, 0⟩, ⟨1, 1⟩⟩, 4⟩,
   ⟨⟨⟨15, 0⟩, ⟨1, 1⟩⟩, 3⟩, ⟨⟨⟨16, 0⟩, ⟨1, 1⟩⟩, 2⟩]

/-- The four items of the test `ValidConfiguration`. -/
def valid_configuration_items : List Item :=
  [mkItem 2 2 1, mkItem 3 3 2, mkItem 1 4 3, mkItem 2 1 4]

/-- The packing of `valid_configuration_items` into bins of size `(5, 5)`. -/
def valid_configuration_bins : List Bin :=
  [⟨⟨5, 5⟩, [⟨⟨⟨0, 0⟩, ⟨1, 4⟩⟩, 3⟩, ⟨⟨⟨1, 0⟩, ⟨3, 3⟩⟩, 2⟩,
             ⟨⟨⟨1, 3⟩, ⟨2, 2⟩⟩, 1⟩, ⟨⟨⟨3, 3⟩, ⟨2, 1⟩⟩, 4⟩]⟩]

/-- A bin of size `(5, 5)` that holds one item of size `(1, 4)` at `(0, 0)`. -/
def one_item_bin : Bin := ⟨⟨5, 5⟩, [⟨⟨⟨0, 0⟩, ⟨1, 4⟩⟩, 3⟩]⟩

/-- Two bins of size `(5, 5)`: the first is full, the second holds a `(1, 4)` item. -/
def two_bins : List Bin := [⟨⟨5, 5⟩, [⟨⟨⟨0, 0⟩, ⟨5, 5⟩⟩, 7⟩]⟩, one_item_bin]

/-- The bin vector `two_bins` after an item of size `(3, 3)` and identifier 2 went into
its second bin. -/
def two_bins_after : List Bin :=
  [⟨⟨5, 5⟩, [⟨⟨⟨0, 0⟩, ⟨5, 5⟩⟩, 7⟩]⟩,
    ⟨⟨5, 5⟩, [⟨⟨⟨0, 0⟩, ⟨1, 4⟩⟩, 3⟩, ⟨⟨⟨1, 0⟩, ⟨3, 3⟩⟩, 2⟩]⟩]

/-- The bin opened by `bin_packing` for an item placed at `(0, 0)`. -/
def single_bin (binSize : Vec2) (it : Item) : Bin := ⟨binSize, [place_item it ⟨0, 0⟩]⟩

/-- The three items of the test `MultipleBinsRequired`. -/
def three_full_items : List Item := [mkItem 5 5 1, mkItem 5 5 2, mkItem 5 5 3]

/-- The sum of the heights of the items of a list. -/
def total_height (l : List Item) : Nat := (l.map (·.rect.size.y)).sum

/-- No item of the bin reaches higher than the sum of the heights of the bin's items. -/
def stacked (bin : Bin) : Prop :=
  ∀ it ∈ bin.items, it.rect.position.y + it.rect.size.y ≤ total_height bin.items

/-- The three items of the test `NonSquareBin`. -/
def full_width_items : List Item := [mkItem 10 2 1, mkItem 10 2 2, mkItem 10 1 3]

/-! ## The compositor of `atlas_package` (`main.cpp`) -/

/-- Multiplication of two `uint32_t` values. -/
def mul32 (a b : Nat) : Nat := (a * b) % 4294967296

/-- The index `dst_idx` of `atlas_package` for the pixel `(x, y)` of an item, every
operation on `uint32_t` operands. -/
def dst_idx (binSize : Vec2) (item : Item) (x y : Nat) : Nat :=
  mul32 (add32 (mul32 (add32 item.rect.position.y y) binSize.x)
    (add32 item.rect.position.x x)) 4

/-- The length `options.bin_size.x * options.bin_size.y * 4` of the buffer `bin_image`
of `atlas_package`, computed on `uint32_t` operands. -/
def bin_image_len (binSize : Vec2) : Nat := mul32 (mul32 binSize.x binSize.y) 4

/-! ## Basic facts -/

theorem add32_lt (a b : Nat) : add32 a b < 4294967296 := by
  unfold add32; omega

theorem sub32_lt (a b : Nat) : sub32 a b < 4294967296 := by
  unfold sub32; omega

theorem sub32_of_le {a b : Nat} (hab : b ≤ a) (ha : a < 4294967296) : sub32 a b = a - b := by
  unfold sub32; omega

theorem noOverlap_eq_no_overlap (candidate itemSize : Vec2) (rect : Rect) :
    noOverlap candidate itemSize rect = no_overlap ⟨candidate, itemSize⟩ rect := rfl

theorem no_overlap_comm (r1 r2 : Rect) : no_overlap r1 r2 = no_overlap r2 r1 := by
  unfold no_overlap
  cases decide (add32 r1.position.x r1.size.x ≤ r2.position.x) <;>
  cases decide (add32 r2.position.x r2.size.x ≤ r1.position.x) <;>
  cases decide (add32 r1.position.y r1.size.y ≤ r2.position.y) <;>
  cases decide (add32 r2.position.y r2.size.y ≤ r1.position.y) <;> rfl

theorem fits_iff (occupied : List Rect) (candidate itemSize : Vec2) :
    fits occupied candidate itemSize = true ↔
      ∀ rect ∈ occupied, no_overlap ⟨candidate, itemSize⟩ rect = true := by
  unfold fits
  rw [List.all_eq_true]
  rfl

/-! ## The scan of `find_placement` returns only candidates that pass its test -/

theorem scan_x_sound (occupied : List Rect) (itemSize : Vec2) (xmax y : Nat) :
    ∀ (fuel x : Nat) (p : Vec2), scan_x occupied itemSize xmax y fuel x = some (some p) →
      fits occupied p itemSize = true ∧ p.y = y ∧ p.x ≤ xmax := by
  intro fuel
  induction fuel with
  | zero => intro x p h; simp [scan_x] at h
  | succ fuel ih =>
    intro x p h
    rw [scan_x] at h
    split at h
    · split at h
      · rename_i hx hf
        injection h with h; injection h with h
        subst h
        exact ⟨hf, rfl, hx⟩
      · exact ih _ p h
    · simp at h

theorem scan_y_sound (occupied : List Rect) (itemSize : Vec2) (xmax ymax fx : Nat) :
    ∀ (fuel y : Nat) (p : Vec2),
      scan_y occupied itemSize xmax ymax fx fuel y = some (some p) →
      fits occupied p itemSize = true ∧ p.x ≤ xmax ∧ p.y ≤ ymax := by
  intro fuel
  induction fuel with
  | zero => intro y p h; simp [scan_y] at h
  | succ fuel ih =>
    intro y p h
    rw [scan_y] at h
    split at h
    · rename_i hy
      split at h
      · simp at h
      · rename_i q hq
        injection h with h; injection h with h
        subst h
        obtain ⟨h1, h2, h3⟩ := scan_x_sound occupied itemSize xmax y fx 0 q hq
        exact ⟨h1, h3, by omega⟩
      · exact ih _ p h
    · simp at h

theorem find_placement_sound {fuel : Nat} {bin : Bin} {itemSize p : Vec2}
    (h : find_placement fuel bin itemSize = some (some p)) :
    (∀ it ∈ bin.items, no_overlap ⟨p, itemSize⟩ it.rect = true) ∧
      p.x ≤ sub32 bin.size.x itemSize.x ∧ p.y ≤ sub32 bin.size.y itemSize.y := by
  obtain ⟨h1, h2, h3⟩ := scan_y_sound _ _ _ _ _ _ _ _ h
  refine ⟨fun it hit => ?_, h2, h3⟩
  exact (fits_iff _ _ _).1 h1 it.rect (List.mem_map_of_mem _ hit)

/-! ## The shape of one iteration of `bin_packing` -/

theorem try_existing_some {fuel : Nat} {item : Item} :
    ∀ {bins bins' : List Bin}, try_existing fuel item bins = some (some bins') →
      ∃ pre bin post p, bins = pre ++ bin :: post ∧
        (∀ b ∈ pre, find_placement fuel b item.rect.size = some none) ∧
        find_placement fuel bin item.rect.size = some (some p) ∧
        bins' = pre ++ bin.push (place_item item p) :: post := by
  intro bins
  induction bins with
  | nil => intro bins' h; simp [try_existing] at h
  | cons bin rest ih =>
    intro bins' h
    rw [try_existing] at h
    split at h
    · simp at h
    · rename_i p hp
      injection h with h; injection h with h
      exact ⟨[], bin, rest, p, rfl, by simp, hp, by simp [← h]⟩
    · rename_i hn
      split at h
      · simp at h
      · simp at h
      · rename_i rest' hr
        injection h with h; injection h with h
        obtain ⟨pre, b, post, p, e1, e2, e3, e4⟩ := ih hr
        refine ⟨bin :: pre, b, post, p, by simp [e1], ?_, e3, by simp [← h, e4]⟩
        intro c hc
        rcases List.mem_cons.1 hc with hc | hc
        · subst hc; exact hn
        · exact e2 c hc

theorem try_existing_none {fuel : Nat} {item : Item} :
    ∀ {bins : List Bin}, try_existing fuel item bins = some none →
      ∀ b ∈ bins, find_placement fuel b item.rect.size = some none := by
  intro bins
  induction bins with
  | nil => intro _ b hb; simp at hb
  | cons bin rest ih =>
    intro h b hb
    rw [try_existing] at h
    split at h
    · simp at h
    · simp at h
    · rename_i hn
      split at h
      · simp at h
      · rename_i hr
        rcases List.mem_cons.1 hb with hb | hb
        · subst hb; exact hn
        · exact ih hr b hb
      · simp at h

theorem pack_step_ok {fuel : Nat} {binSize : Vec2} {bins bins' : List Bin} {item : Item}
    (h : pack_step fuel binSize bins item = some (.ok bins')) :
    (∃ pre bin post p, bins = pre ++ bin :: post ∧
        (∀ b ∈ pre, find_placement fuel b item.rect.size = some none) ∧
        find_placement fuel bin item.rect.size = some (some p) ∧
        bins' = pre ++ bin.push (place_item item p) :: post) ∨
    ((∀ b ∈ bins, find_placement fuel b item.rect.size = some none) ∧
      ∃ p, find_placement fuel ⟨binSize, []⟩ item.rect.size = some (some p) ∧
        bins' = bins ++ [Bin.push ⟨binSize, []⟩ (place_item item p)]) := by
  unfold pack_step at h
  split at h
  · simp at h
  · rename_i b1 hb
    injection h with h; injection h with h
    subst h
    exact Or.inl (try_existing_some hb)
  · rename_i hb
    split at h
    · simp at h
    · rename_i p hp
      injection h with h; injection h with h
      exact Or.inr ⟨try_existing_none hb, p, hp, h.symm⟩
    · simp at h

/-- From a property `P` of every bin before an iteration to a property `Q` of every bin
after it: `Q` has to follow from `P` for a bin left alone, for a bin pushed into, and it
has to hold of a freshly opened bin. -/
theorem pack_step_forall {fuel : Nat} {binSize : Vec2} {bins bins' : List Bin} {item : Item}
    (P Q : Bin → Prop) (hkeep : ∀ b, P b → Q b)
    (hnew : ∀ p, find_placement fuel ⟨binSize, []⟩ item.rect.size = some (some p) →
      Q (Bin.push ⟨binSize, []⟩ (place_item item p)))
    (hpush : ∀ bin p, P bin → find_placement fuel bin item.rect.size = some (some p) →
      Q (bin.push (place_item item p)))
    (hbins : ∀ b ∈ bins, P b)
    (h : pack_step fuel binSize bins item = some (.ok bins')) : ∀ b ∈ bins', Q b := by
  rcases pack_step_ok h with ⟨pre, bin, post, p, e1, _, e3, e4⟩ | ⟨_, p, e2, e3⟩
  · subst e1 e4
    intro b hb
    simp only [List.mem_append, List.mem_cons] at hb hbins
    rcases hb with hb | hb | hb
    · exact hkeep b (hbins b (Or.inl hb))
    · subst hb; exact hpush bin p (hbins bin (Or.inr (Or.inl rfl))) e3
    · exact hkeep b (hbins b (Or.inr (Or.inr hb)))
  · subst e3
    intro b hb
    simp only [List.mem_append, List.mem_singleton] at hb
    rcases hb with hb | hb
    · exact hkeep b (hbins b hb)
    · subst hb; exact hnew p e2

/-- Induction over the item loop of `bin_packing`: an invariant relating the items
processed so far to the bin vector, kept by every iteration, holds at the end. -/
theorem pack_items_induction {fuel : Nat} {binSize : Vec2}
    (I : List Item → List Bin → Prop)
    (hstep : ∀ done bins item bins', I done bins →
      pack_step fuel binSize bins item = some (.ok bins') → I (done ++ [item]) bins') :
    ∀ (l done : List Item) (bins out : List Bin), I done bins →
      pack_items fuel binSize l bins = some (.ok out) → I (done ++ l) out := by
  intro l
  induction l with
  | nil =>
    intro done bins out hI h
    simp only [pack_items] at h
    injection h with h; injection h with h
    subst h; simpa using hI
  | cons item rest ih =>
    intro done bins out hI h
    rw [pack_items] at h
    split at h
    · simp at h
    · simp at h
    · rename_i bins' hs
      have := ih (done ++ [item]) bins' out (hstep done bins item bins' hI hs) h
      simpa using this

/-! ## No overlap -/

theorem overlap_free_push {fuel : Nat} {bin : Bin} {item : Item} {p : Vec2}
    (hbin : overlap_free bin)
    (h : find_placement fuel bin item.rect.size = some (some p)) :
    overlap_free (bin.push (place_item item p)) := by
  unfold overlap_free Bin.push
  rw [List.pairwise_append]
  refine ⟨hbin, List.pairwise_singleton _ _, ?_⟩
  intro a ha b hb
  rw [List.mem_singleton] at hb
  subst hb
  rw [no_overlap_comm]
  exact (find_placement_sound h).1 a ha

theorem pack_items_overlap_free {fuel : Nat} {binSize : Vec2} {l : List Item}
    {bins out : List Bin} (hbins : ∀ b ∈ bins, overlap_free b)
    (h : pack_items fuel binSize l bins = some (.ok out)) : ∀ b ∈ out, overlap_free b := by
  refine pack_items_induction (fun _ bs => ∀ b ∈ bs, overlap_free b) ?_ l [] bins out hbins h
  intro done bs item bs' hI hs
  exact pack_step_forall overlap_free overlap_free (fun _ hb => hb)
    (fun p hp => overlap_free_push List.Pairwise.nil hp)
    (fun bin p hb hp => overlap_free_push hb hp) hI hs

/-- C1 (no overlap).  Whenever `bin_packing` returns, in every bin of the result any two
items at distinct indices pass the axis-separation test of the test suite, the helper
`no_overlap`, evaluated on `uint32_t` operands as the helper evaluates it. -/
theorem bin_packing_no_overlap (sort : StdSort) (fuel : Nat) (items : List Item)
    (binSize : Vec2) (bins : List Bin)
    (h : bin_packing sort fuel items binSize = some (.ok bins)) :
    ∀ bin ∈ bins, ∀ a b : Fin bin.items.length, a ≠ b →
      no_overlap (bin.items.get a).rect (bin.items.get b).rect = true := by
  intro bin hbin a b hab
  have hnil : ∀ b ∈ ([] : List Bin), overlap_free b := by simp
  have hfree : overlap_free bin := pack_items_overlap_free hnil h bin hbin
  have hget := List.pairwise_iff_get.1 hfree
  rcases Nat.lt_or_gt_of_ne (fun e => hab (Fin.ext e)) with hlt | hgt
  · exact hget a b hlt
  · rw [no_overlap_comm]; exact hget b a hgt

theorem bin_packing_no_overlap_witness :
    bin_packing insertion_sort 10 valid_configuration_items ⟨5, 5⟩ =
        some (.ok valid_configuration_bins) ∧
      ∀ bin ∈ valid_configuration_bins, ∀ a b : Fin bin.items.length, a ≠ b →
        no_overlap (bin.items.get a).rect (bin.items.get b).rect = true :=
  ⟨by rfl, bin_packing_no_overlap insertion_sort 10 valid_configuration_items ⟨5, 5⟩
    valid_configuration_bins (by rfl)⟩

/-! ## Containment -/

theorem StdSort.run_singleton (sort : StdSort) (a : Item) : sort.run [a] = [a] :=
  List.perm_singleton.1 (sort.perm [a])

theorem find_placement_empty (fuel : Nat) (binSize itemSize : Vec2) :
    find_placement (fuel + 1) ⟨binSize, []⟩ itemSize = some (some ⟨0, 0⟩) := by
  simp [find_placement, scan_y, scan_x, fits]

/-- C2 (containment), evaluated where it fails.  With bins of size `(5, 5)` and the one
item of size `(6, 6)` of the test `ItemsTooLarge`, `bin_packing` returns one bin that holds
the item at `(0, 0)`: the item does not lie inside the bin, and the assertions of
`ensure_items_fit` fail on it. -/
theorem bin_packing_containment_fails (sort : StdSort) (fuel : Nat) :
    ∃ bins, bin_packing sort (fuel + 1) [mkItem 6 6 1] ⟨5, 5⟩ = some (.ok bins) ∧
      ∃ bin ∈ bins, ∃ it ∈ bin.items,
        bin.size = ⟨5, 5⟩ ∧ ¬ inside bin.size it.rect ∧ item_fits bin it = false := by
  refine ⟨[⟨⟨5, 5⟩, [mkItem 6 6 1]⟩], ?_, ⟨⟨5, 5⟩, [mkItem 6 6 1]⟩, by simp, mkItem 6 6 1,
    by simp, rfl, by decide, by decide⟩
  simp [bin_packing, StdSort.run_singleton, pack_items, pack_step, try_existing,
    find_placement_empty, Bin.push, place_item, mkItem]

/-! ## Completeness -/

theorem item_key_place_item (item : Item) (p : Vec2) :
    item_key (place_item item p) = item_key item := rfl

theorem pack_step_keys {fuel : Nat} {binSize : Vec2} {bins bins' : List Bin} {item : Item}
    (h : pack_step fuel binSize bins item = some (.ok bins')) :
    ((all_items bins').map item_key).Perm ((all_items bins).map item_key ++ [item_key item]) := by
  rcases pack_step_ok h with ⟨pre, bin, post, p, e1, _, _, e4⟩ | ⟨_, p, _, e3⟩
  · subst e1 e4
    rw [List.perm_iff_count]
    intro k
    simp only [all_items, Bin.push, List.map_append, List.map_cons, List.flatten_append,
      List.flatten_cons, List.count_append, item_key_place_item, List.map_nil]
    omega
  · subst e3
    simp [all_items, Bin.push, item_key_place_item]

theorem pack_items_keys {fuel : Nat} {binSize : Vec2} {l : List Item} {out : List Bin}
    (h : pack_items fuel binSize l [] = some (.ok out)) :
    ((all_items out).map item_key).Perm (l.map item_key) := by
  have := pack_items_induction
    (fun done bs => ((all_items bs).map item_key).Perm (done.map item_key)) ?_ l [] [] out
    (by simp [all_items]) h
  · simpa using this
  · intro done bs item bs' hI hs
    refine (pack_step_keys hs).trans ?_
    rw [List.map_append]
    exact List.Perm.append_right _ hI

/-- C3 (completeness).  Whenever `bin_packing` returns, the (identifier, size) pairs of
the items of all output bins are a permutation of the (identifier, size) pairs of the
input list: no item is lost, duplicated or resized. -/
theorem bin_packing_complete (sort : StdSort) (fuel : Nat) (items : List Item)
    (binSize : Vec2) (bins : List Bin)
    (h : bin_packing sort fuel items binSize = some (.ok bins)) :
    ((all_items bins).map item_key).Perm (items.map item_key) :=
  (pack_items_keys h).trans ((sort.perm items).map item_key)

theorem bin_packing_complete_witness :
    bin_packing insertion_sort 10 valid_configuration_items ⟨5, 5⟩ =
        some (.ok valid_configuration_bins) ∧
      ((all_items valid_configuration_bins).map item_key).Perm
        (valid_configuration_items.map item_key) :=
  ⟨by rfl, bin_packing_complete insertion_sort 10 valid_configuration_items ⟨5, 5⟩
    valid_configuration_bins (by rfl)⟩

/-! ## Oversized items -/

/-- C4 (fatal on oversize), evaluated where it fails.  With bins of size `(5, 5)` and the
one item of size `(6, 6)` of the test `ItemsTooLarge`, `bin_packing` does not throw: it
returns one bin that holds the item at `(0, 0)`. -/
theorem bin_packing_oversize_returns (sort : StdSort) (fuel : Nat) :
    bin_packing sort (fuel + 1) [mkItem 6 6 1] ⟨5, 5⟩ =
      some (.ok [⟨⟨5, 5⟩, [mkItem 6 6 1]⟩]) := by
  simp [bin_packing, StdSort.run_singleton, pack_items, pack_step, try_existing,
    find_placement_empty, Bin.push, place_item, mkItem]

/-- C5 (oversize is rejected by `find_placement`), evaluated where it fails.  On the
empty bin of size `(5, 5)` and the item size `(6, 6)`, `find_placement` returns the
position `(0, 0)`, not `std::nullopt`: both loop bounds `5 - 6` wrap around to
`4294967295`. -/
theorem find_placement_oversize_accepted (fuel : Nat) :
    sub32 5 6 = 4294967295 ∧
      find_placement (fuel + 1) ⟨⟨5, 5⟩, []⟩ ⟨6, 6⟩ = some (some ⟨0, 0⟩) :=
  ⟨by decide, find_placement_empty fuel ⟨5, 5⟩ ⟨6, 6⟩⟩

/-! ## The scan of `find_placement` visits the candidates in row-major order -/

theorem scan_x_spec (occupied : List Rect) (itemSize : Vec2) (xmax y : Nat)
    (hmax : xmax + 1 < 4294967296) :
    ∀ fuel x, x ≤ xmax + 1 → xmax + 2 ≤ fuel + x →
      (∃ x', x ≤ x' ∧ x' ≤ xmax ∧ fits occupied ⟨x', y⟩ itemSize = true ∧
        (∀ x'', x ≤ x'' → x'' < x' → fits occupied ⟨x'', y⟩ itemSize = false) ∧
        scan_x occupied itemSize xmax y fuel x = some (some ⟨x', y⟩)) ∨
      ((∀ x', x ≤ x' → x' ≤ xmax → fits occupied ⟨x', y⟩ itemSize = false) ∧
        scan_x occupied itemSize xmax y fuel x = some none) := by
  intro fuel
  induction fuel with
  | zero => intro x h1 h2; omega
  | succ fuel ih =>
    intro x h1 h2
    rw [scan_x]
    by_cases hx : x ≤ xmax
    · rw [if_pos hx]
      by_cases hf : fits occupied ⟨x, y⟩ itemSize = true
      · rw [if_pos hf]
        exact Or.inl ⟨x, le_refl _, hx, hf, fun x'' a b => by omega, rfl⟩
      · rw [if_neg hf]
        have hadd : add32 x 1 = x + 1 := by unfold add32; omega
        rw [hadd]
        have hf' : fits occupied ⟨x, y⟩ itemSize = false := by simpa using hf
        rcases ih (x + 1) (by omega) (by omega) with ⟨x', a, b, c, d, e⟩ | ⟨a, b⟩
        · refine Or.inl ⟨x', by omega, b, c, ?_, e⟩
          intro x'' h3 h4
          rcases Nat.eq_or_lt_of_le h3 with h5 | h5
          · subst h5; exact hf'
          · exact d x'' h5 h4
        · refine Or.inr ⟨?_, b⟩
          intro x' h3 h4
          rcases Nat.eq_or_lt_of_le h3 with h5 | h5
          · subst h5; exact hf'
          · exact a x' h5 h4
    · rw [if_neg hx]
      exact Or.inr ⟨fun x' a b => by omega, rfl⟩

theorem scan_y_spec (occupied : List Rect) (itemSize : Vec2) (xmax ymax fx : Nat)
    (hxmax : xmax + 1 < 4294967296) (hymax : ymax + 1 < 4294967296) (hfx : xmax + 2 ≤ fx) :
    ∀ fuel y, y ≤ ymax + 1 → ymax + 2 ≤ fuel + y →
      (∃ p, y ≤ p.y ∧ p.y ≤ ymax ∧ p.x ≤ xmax ∧ fits occupied p itemSize = true ∧
        (∀ q : Vec2, q.x ≤ xmax → y ≤ q.y → scanned_before q p →
          fits occupied q itemSize = false) ∧
        scan_y occupied itemSize xmax ymax fx fuel y = some (some p)) ∨
      ((∀ q : Vec2, q.x ≤ xmax → y ≤ q.y → q.y ≤ ymax → fits occupied q itemSize = false) ∧
        scan_y occupied itemSize xmax ymax fx fuel y = some none) := by
  intro fuel
  induction fuel with
  | zero => intro y h1 h2; omega
  | succ fuel ih =>
    intro y h1 h2
    rw [scan_y]
    by_cases hy : y ≤ ymax
    · rw [if_pos hy]
      rcases scan_x_spec occupied itemSize xmax y hxmax fx 0 (by omega) (by omega) with
        ⟨x', _, b, c, d, e⟩ | ⟨a, b⟩
      · rw [e]
        refine Or.inl ⟨⟨x', y⟩, le_refl _, hy, b, c, ?_, rfl⟩
        intro q _ h4 h5
        rcases h5 with h5 | ⟨h5, h6⟩
        · simp only at h5; omega
        · simp only at h5 h6
          have : q = ⟨q.x, y⟩ := by cases q; simp_all
          rw [this]
          exact d q.x (Nat.zero_le _) h6
      · rw [b]
        have hadd : add32 y 1 = y + 1 := by unfold add32; omega
        simp only [hadd]
        have hrow : ∀ q : Vec2, q.x ≤ xmax → q.y = y → fits occupied q itemSize = false := by
          intro q h3 h4
          have : q = ⟨q.x, y⟩ := by cases q; simp_all
          rw [this]
          exact a q.x (Nat.zero_le _) h3
        rcases ih (y + 1) (by omega) (by omega) with ⟨p, p1, p2, p3, p4, p5, p6⟩ | ⟨a', b'⟩
        · refine Or.inl ⟨p, by omega, p2, p3, p4, ?_, p6⟩
          intro q h3 h4 h5
          rcases Nat.eq_or_lt_of_le h4 with h6 | h6
          · exact hrow q h3 h6.symm
          · exact p5 q h3 h6 h5
        · refine Or.inr ⟨?_, b'⟩
          intro q h3 h4 h5
          rcases Nat.eq_or_lt_of_le h4 with h6 | h6
          · exact hrow q h3 h6.symm
          · exact a' q h3 h6 h5
    · rw [if_neg hy]
      exact Or.inr ⟨fun q _ b c => by omega, rfl⟩

theorem fits_origin_of_zero (occupied : List Rect) (itemSize : Vec2)
    (h : itemSize.x = 0 ∨ itemSize.y = 0) : fits occupied ⟨0, 0⟩ itemSize = true := by
  rw [fits_iff]
  intro rect _
  unfold no_overlap add32
  rcases h with h | h <;> simp [h]

theorem find_placement_of_fits_origin (fuel : Nat) (bin : Bin) (itemSize : Vec2)
    (h : fits (bin.items.map (·.rect)) ⟨0, 0⟩ itemSize = true) :
    find_placement (fuel + 1) bin itemSize = some (some ⟨0, 0⟩) := by
  simp [find_placement, scan_y, scan_x, h]

/-! ## More fuel does not change a result -/

theorem scan_x_mono (occupied : List Rect) (itemSize : Vec2) (xmax y : Nat) :
    ∀ (fuel fuel' x : Nat) (r : Option Vec2), fuel ≤ fuel' →
      scan_x occupied itemSize xmax y fuel x = some r →
      scan_x occupied itemSize xmax y fuel' x = some r := by
  intro fuel
  induction fuel with
  | zero => intro fuel' x r _ h; simp [scan_x] at h
  | succ fuel ih =>
    intro fuel' x r hle h
    obtain ⟨k, rfl⟩ : ∃ k, fuel' = k + 1 := ⟨fuel' - 1, by omega⟩
    rw [scan_x] at h ⊢
    split
    · split
      · rename_i hx hf
        simpa [hx, hf] using h
      · rename_i hx hf
        simp only [hx, hf, if_true] at h
        exact ih k _ r (by omega) h
    · rename_i hx
      simpa [hx] using h

theorem scan_y_mono (occupied : List Rect) (itemSize : Vec2) (xmax ymax fx fx' : Nat)
    (hfx : fx ≤ fx') :
    ∀ (fuel fuel' y : Nat) (r : Option Vec2), fuel ≤ fuel' →
      scan_y occupied itemSize xmax ymax fx fuel y = some r →
      scan_y occupied itemSize xmax ymax fx' fuel' y = some r := by
  intro fuel
  induction fuel with
  | zero => intro fuel' y r _ h; simp [scan_y] at h
  | succ fuel ih =>
    intro fuel' y r hle h
    obtain ⟨k, rfl⟩ : ∃ k, fuel' = k + 1 := ⟨fuel' - 1, by omega⟩
    rw [scan_y] at h ⊢
    by_cases hy : y ≤ ymax
    · rw [if_pos hy] at h ⊢
      cases hsx : scan_x occupied itemSize xmax y fx 0 with
      | none => rw [hsx] at h; simp at h
      | some rx =>
        rw [hsx] at h
        rw [scan_x_mono occupied itemSize xmax y fx fx' 0 rx hfx hsx]
        cases rx with
        | none => exact ih k _ r (by omega) h
        | some q => exact h
    · rw [if_neg hy] at h ⊢
      exact h

theorem find_placement_mono {fuel fuel' : Nat} {bin : Bin} {itemSize : Vec2}
    {r : Option Vec2} (hle : fuel ≤ fuel')
    (h : find_placement fuel bin itemSize = some r) :
    find_placement fuel' bin itemSize = some r :=
  scan_y_mono _ _ _ _ _ _ hle _ _ _ _ hle h

/-! ## Bottom-left-first -/

theorem valid_position_iff {bin : Bin} {itemSize q : Vec2} (hwf : bin.size.wf)
    (hx : itemSize.x ≤ bin.size.x) (hy : itemSize.y ≤ bin.size.y) :
    valid_position bin itemSize q ↔
      q.x ≤ sub32 bin.size.x itemSize.x ∧ q.y ≤ sub32 bin.size.y itemSize.y ∧
        fits (bin.items.map (·.rect)) q itemSize = true := by
  rw [sub32_of_le hx hwf.1, sub32_of_le hy hwf.2, fits_iff]
  unfold valid_position
  simp only [List.mem_map, forall_exists_index, and_imp, forall_apply_eq_imp_iff₂]

theorem find_placement_result (bin : Bin) (itemSize : Vec2) (hwf : bin.size.wf)
    (hx : itemSize.x ≤ bin.size.x) (hy : itemSize.y ≤ bin.size.y) :
    ∃ r : Option Vec2,
      (∀ fuel, bin.size.x + bin.size.y + 2 ≤ fuel →
        find_placement fuel bin itemSize = some r) ∧
      (∀ p, r = some p → valid_position bin itemSize p ∧
        ∀ q, valid_position bin itemSize q → row_major_le p q) ∧
      (r = none ↔ ∀ q, ¬ valid_position bin itemSize q) := by
  have hbx : bin.size.x < 4294967296 := hwf.1
  have hby : bin.size.y < 4294967296 := hwf.2
  by_cases hz : itemSize.x = 0 ∨ itemSize.y = 0
  · have hfit := fits_origin_of_zero (bin.items.map (·.rect)) itemSize hz
    have hvalid : valid_position bin itemSize ⟨0, 0⟩ :=
      (valid_position_iff hwf hx hy).2 ⟨Nat.zero_le _, Nat.zero_le _, hfit⟩
    refine ⟨some ⟨0, 0⟩, ?_, ?_, ?_⟩
    · intro fuel hfuel
      obtain ⟨k, rfl⟩ : ∃ k, fuel = k + 1 := ⟨fuel - 1, by omega⟩
      exact find_placement_of_fits_origin k bin itemSize hfit
    · intro p hp
      injection hp with hp
      subst hp
      refine ⟨hvalid, fun q _ => ?_⟩
      unfold row_major_le
      simp only
      omega
    · constructor
      · intro h; simp at h
      · intro h; exact absurd hvalid (h _)
  · have hsx : sub32 bin.size.x itemSize.x = bin.size.x - itemSize.x := sub32_of_le hx hbx
    have hsy : sub32 bin.size.y itemSize.y = bin.size.y - itemSize.y := sub32_of_le hy hby
    have hspec := scan_y_spec (bin.items.map (·.rect)) itemSize
      (sub32 bin.size.x itemSize.x) (sub32 bin.size.y itemSize.y)
      (bin.size.x + bin.size.y + 2) (by omega) (by omega) (by omega)
      (bin.size.x + bin.size.y + 2) 0 (by omega) (by omega)
    rcases hspec with ⟨p, _, p2, p3, p4, p5, p6⟩ | ⟨a, b⟩
    · refine ⟨some p, ?_, ?_, ?_⟩
      · intro fuel hfuel
        exact find_placement_mono hfuel p6
      · intro p' hp'
        injection hp' with hp'
        subst hp'
        refine ⟨(valid_position_iff hwf hx hy).2 ⟨p3, p2, p4⟩, fun q hq => ?_⟩
        obtain ⟨q1, _, q3⟩ := (valid_position_iff hwf hx hy).1 hq
        have hnot : ¬ scanned_before q p := by
          intro hb
          have := p5 q q1 (Nat.zero_le _) hb
          rw [q3] at this
          exact Bool.noConfusion this
        unfold scanned_before at hnot
        unfold row_major_le
        omega
      · constructor
        · intro h; simp at h
        · intro h
          exact absurd ((valid_position_iff hwf hx hy).2 ⟨p3, p2, p4⟩) (h _)
    · refine ⟨none, ?_, ?_, ?_⟩
      · intro fuel hfuel
        exact find_placement_mono hfuel b
      · intro p hp; simp at hp
      · constructor
        · intro _ q hq
          obtain ⟨q1, q2, q3⟩ := (valid_position_iff hwf hx hy).1 hq
          have := a q q1 (Nat.zero_le _) q2
          rw [q3] at this
          exact Bool.noConfusion this
        · intro _; rfl

/-- C6 (bottom-left-first).  For an item size that does not exceed the bin size,
`find_placement` returns, for every fuel from `bin.size.x + bin.size.y + 2` on, one and the
same result; if the result is a position it is a valid position and comes first in
row-major order among all valid positions; and the result is `std::nullopt` exactly when
there is no valid position.  The axis-separation test is that of the source, on
`uint32_t` operands. -/
theorem find_placement_bottom_left (bin : Bin) (itemSize : Vec2) (hwf : bin.size.wf)
    (hx : itemSize.x ≤ bin.size.x) (hy : itemSize.y ≤ bin.size.y) :
    ∃ r : Option Vec2,
      (∀ fuel, bin.size.x + bin.size.y + 2 ≤ fuel →
        find_placement fuel bin itemSize = some r) ∧
      (∀ p, r = some p → valid_position bin itemSize p ∧
        ∀ q, valid_position bin itemSize q → row_major_le p q) ∧
      (r = none ↔ ∀ q, ¬ valid_position bin itemSize q) :=
  find_placement_result bin itemSize hwf hx hy

theorem find_placement_bottom_left_witness :
    (one_item_bin.size.wf ∧ 3 ≤ one_item_bin.size.x ∧ 3 ≤ one_item_bin.size.y) ∧
      find_placement 12 one_item_bin ⟨3, 3⟩ = some (some ⟨1, 0⟩) ∧
      ∃ r : Option Vec2,
        (∀ fuel, one_item_bin.size.x + one_item_bin.size.y + 2 ≤ fuel →
          find_placement fuel one_item_bin ⟨3, 3⟩ = some r) ∧
        (∀ p, r = some p → valid_position one_item_bin ⟨3, 3⟩ p ∧
          ∀ q, valid_position one_item_bin ⟨3, 3⟩ q → row_major_le p q) ∧
        (r = none ↔ ∀ q, ¬ valid_position one_item_bin ⟨3, 3⟩ q) :=
  ⟨by decide, by rfl,
    find_placement_bottom_left one_item_bin ⟨3, 3⟩ (by decide) (by decide) (by decide)⟩

/-! ## Soundness of `find_placement` on the integers -/

theorem find_placement_inside_separated {fuel : Nat} {bin : Bin} {itemSize p : Vec2}
    (hwf : bin.size.wf) (hin : ∀ it ∈ bin.items, inside bin.size it.rect)
    (hx : itemSize.x ≤ bin.size.x) (hy : itemSize.y ≤ bin.size.y)
    (h : find_placement fuel bin itemSize = some (some p)) :
    p.x + itemSize.x ≤ bin.size.x ∧ p.y + itemSize.y ≤ bin.size.y ∧
      ∀ it ∈ bin.items, separated ⟨p, itemSize⟩ it.rect := by
  have hbx : bin.size.x < 4294967296 := hwf.1
  have hby : bin.size.y < 4294967296 := hwf.2
  obtain ⟨h1, h2, h3⟩ := find_placement_sound h
  rw [sub32_of_le hx hbx] at h2
  rw [sub32_of_le hy hby] at h3
  refine ⟨by omega, by omega, fun it hit => ?_⟩
  have hsep := h1 it hit
  have hit' := hin it hit
  unfold no_overlap add32 at hsep
  simp only [Bool.or_eq_true, decide_eq_true_eq] at hsep
  unfold inside at hit'
  unfold separated
  simp only at hsep ⊢
  omega

/-- C7 (soundness of `find_placement`).  In a bin whose items lie inside the bin, for an
item size that does not exceed the bin size, a position returned by `find_placement`
puts the item inside the bin and separates it from every item of the bin, all sums taken
on the integers, without wrap-around. -/
theorem find_placement_sound_exact (fuel : Nat) (bin : Bin) (itemSize p : Vec2)
    (hwf : bin.size.wf) (hin : ∀ it ∈ bin.items, inside bin.size it.rect)
    (hx : itemSize.x ≤ bin.size.x) (hy : itemSize.y ≤ bin.size.y)
    (h : find_placement fuel bin itemSize = some (some p)) :
    p.x + itemSize.x ≤ bin.size.x ∧ p.y + itemSize.y ≤ bin.size.y ∧
      ∀ it ∈ bin.items, separated ⟨p, itemSize⟩ it.rect :=
  find_placement_inside_separated hwf hin hx hy h

theorem find_placement_sound_exact_witness :
    (one_item_bin.size.wf ∧ (∀ it ∈ one_item_bin.items, inside one_item_bin.size it.rect) ∧
        3 ≤ one_item_bin.size.x ∧ 3 ≤ one_item_bin.size.y ∧
        find_placement 12 one_item_bin ⟨3, 3⟩ = some (some ⟨1, 0⟩)) ∧
      (1 + 3 ≤ one_item_bin.size.x ∧ 0 + 3 ≤ one_item_bin.size.y ∧
        ∀ it ∈ one_item_bin.items, separated ⟨⟨1, 0⟩, ⟨3, 3⟩⟩ it.rect) :=
  ⟨⟨by decide, by decide, by decide, by decide, by rfl⟩,
    find_placement_sound_exact 12 one_item_bin ⟨3, 3⟩ ⟨1, 0⟩ (by decide) (by decide)
      (by decide) (by decide) (by rfl)⟩

/-! ## First fit -/

theorem try_existing_at {fuel : Nat} {item : Item} :
    ∀ (bins : List Bin) (k : Nat) (hk : k < bins.length) (p : Vec2),
      find_placement fuel bins[k] item.rect.size = some (some p) →
      (∀ (j : Nat) (hj : j < bins.length), j < k →
        find_placement fuel bins[j] item.rect.size = some none) →
      try_existing fuel item bins =
        some (some (bins.set k (bins[k].push (place_item item p)))) := by
  intro bins
  induction bins with
  | nil => intro k hk; simp at hk
  | cons b rest ih =>
    intro k hk p hp hbefore
    cases k with
    | zero =>
      simp only [List.getElem_cons_zero] at hp
      rw [try_existing, hp]
      simp
    | succ k =>
      have h0 := hbefore 0 (by simp) (by omega)
      simp only [List.getElem_cons_zero] at h0
      have hk' : k < rest.length := by simpa using hk
      have ih' := ih k hk' p (by simpa using hp) (fun j hj hjk => by
        have := hbefore (j + 1) (by simp; omega) (by omega)
        simpa using this)
      rw [try_existing, h0]
      simp only
      rw [ih']
      simp

theorem try_existing_all_none {fuel : Nat} {item : Item} :
    ∀ (bins : List Bin), (∀ b ∈ bins, find_placement fuel b item.rect.size = some none) →
      try_existing fuel item bins = some none := by
  intro bins
  induction bins with
  | nil => intro _; rfl
  | cons b rest ih =>
    intro h
    rw [try_existing, h b (by simp), ih (fun c hc => h c (by simp [hc]))]

/-- C8 (first fit), for one iteration of the item loop of `bin_packing` at the bin vector
`bins`.  (1) If `find_placement` returns a position `p` for the bin at index `k` and
`std::nullopt` for every bin at a lower index, the iteration pushes the item, at
position `p`, into the bin at index `k` and changes nothing else.  (2) If `find_placement`
returns `std::nullopt` for every bin and a position `p` for the empty bin, the iteration
appends a new bin that holds the item at `p`.  (3) If an iteration ends with one bin more
than before, `find_placement` returned `std::nullopt` for every bin that was open. -/
theorem pack_step_first_fit (fuel : Nat) (binSize : Vec2) (bins : List Bin) (item : Item) :
    (∀ (k : Nat) (hk : k < bins.length) (p : Vec2),
      find_placement fuel bins[k] item.rect.size = some (some p) →
      (∀ (j : Nat) (hj : j < bins.length), j < k →
        find_placement fuel bins[j] item.rect.size = some none) →
      pack_step fuel binSize bins item =
        some (.ok (bins.set k (bins[k].push (place_item item p))))) ∧
    (∀ p : Vec2, (∀ b ∈ bins, find_placement fuel b item.rect.size = some none) →
      find_placement fuel ⟨binSize, []⟩ item.rect.size = some (some p) →
      pack_step fuel binSize bins item =
        some (.ok (bins ++ [⟨binSize, [place_item item p]⟩]))) ∧
    (∀ bins' : List Bin, pack_step fuel binSize bins item = some (.ok bins') →
      bins'.length = bins.length + 1 →
      ∀ b ∈ bins, find_placement fuel b item.rect.size = some none) := by
  refine ⟨?_, ?_, ?_⟩
  · intro k hk p hp hbefore
    unfold pack_step
    rw [try_existing_at bins k hk p hp hbefore]
  · intro p hnone hp
    unfold pack_step
    rw [try_existing_all_none bins hnone]
    simp only [hp]
    rfl
  · intro bins' h hlen
    rcases pack_step_ok h with ⟨pre, bin, post, p, e1, _, _, e4⟩ | ⟨hnone, _⟩
    · subst e1 e4
      simp at hlen
    · exact hnone

theorem pack_step_first_fit_witness :
    (find_placement 12 two_bins[1] (mkItem 3 3 2).rect.size = some (some ⟨1, 0⟩) ∧
      (∀ (j : Nat) (hj : j < two_bins.length), j < 1 →
        find_placement 12 two_bins[j] (mkItem 3 3 2).rect.size = some none)) ∧
      pack_step 12 ⟨5, 5⟩ two_bins (mkItem 3 3 2) =
        some (.ok (two_bins.set 1 (two_bins[1].push (place_item (mkItem 3 3 2) ⟨1, 0⟩)))) :=
  have h1 : find_placement 12 two_bins[1] (mkItem 3 3 2).rect.size = some (some ⟨1, 0⟩) := by
    rfl
  have h2 : ∀ (j : Nat) (hj : j < two_bins.length), j < 1 →
      find_placement 12 two_bins[j] (mkItem 3 3 2).rect.size = some none := by
    intro j hj hlt
    obtain rfl : j = 0 := by omega
    simp only [two_bins, List.getElem_cons_zero]
    decide
  ⟨⟨h1, h2⟩, (pack_step_first_fit 12 ⟨5, 5⟩ two_bins (mkItem 3 3 2)).1 1 (by decide) ⟨1, 0⟩
    h1 h2⟩

/-! ## Placement order -/

theorem not_sort_cmp_iff (a b : Item) :
    ¬ sort_cmp b a ↔ size_order a.rect.size b.rect.size := by
  unfold sort_cmp size_order; omega

theorem sorted_sizes (sort : StdSort) (l : List Item) :
    ((sort.run l).map (·.rect.size)).Pairwise size_order := by
  rw [List.pairwise_map]
  exact (sort.ordered l).imp (fun {a b} h => (not_sort_cmp_iff a b).1 h)

theorem pack_items_sublist {fuel : Nat} {binSize : Vec2} {l : List Item} {out : List Bin}
    (h : pack_items fuel binSize l [] = some (.ok out)) :
    ∀ b ∈ out, (bin_sizes b).Sublist (l.map (·.rect.size)) := by
  have := pack_items_induction
    (fun done bs => ∀ b ∈ bs, (bin_sizes b).Sublist (done.map (·.rect.size))) ?_ l [] [] out
    (by simp) h
  · simpa using this
  · intro done bs item bs' hI hs
    refine pack_step_forall (fun b => (bin_sizes b).Sublist (done.map (·.rect.size)))
      (fun b => (bin_sizes b).Sublist ((done ++ [item]).map (·.rect.size))) ?_ ?_ ?_ hI hs
    · intro b hb
      rw [List.map_append]
      exact hb.trans (List.sublist_append_left _ _)
    · intro p _
      rw [List.map_append]
      exact List.sublist_append_right _ _
    · intro bin p hb _
      rw [List.map_append]
      simp only [bin_sizes, Bin.push, List.map_append]
      exact List.Sublist.append hb (List.Sublist.refl _)

/-- C9 (placement order).  Whenever `bin_packing` returns, the items of each output
bin stand, in collection order, in non-increasing height, and items of equal height in
non-increasing width: of any two items of a bin, the later one is not higher than the
earlier one, and if they are equally high it is not wider. -/
theorem bin_packing_placement_order (sort : StdSort) (fuel : Nat) (items : List Item)
    (binSize : Vec2) (bins : List Bin)
    (h : bin_packing sort fuel items binSize = some (.ok bins)) :
    ∀ bin ∈ bins, bin.items.Pairwise (fun a b =>
      b.rect.size.y ≤ a.rect.size.y ∧
        (b.rect.size.y = a.rect.size.y → b.rect.size.x ≤ a.rect.size.x)) := by
  intro bin hbin
  have hsub := pack_items_sublist h bin hbin
  have hpw := (sorted_sizes sort items).sublist hsub
  unfold bin_sizes at hpw
  rw [List.pairwise_map] at hpw
  exact hpw

theorem bin_packing_placement_order_witness :
    bin_packing insertion_sort 10 valid_configuration_items ⟨5, 5⟩ =
        some (.ok valid_configuration_bins) ∧
      ∀ bin ∈ valid_configuration_bins, bin.items.Pairwise (fun a b =>
        b.rect.size.y ≤ a.rect.size.y ∧
          (b.rect.size.y = a.rect.size.y → b.rect.size.x ≤ a.rect.size.x)) :=
  ⟨by rfl, bin_packing_placement_order insertion_sort 10 valid_configuration_items ⟨5, 5⟩
    valid_configuration_bins (by rfl)⟩

/-! ## Stability of the ordering step -/

set_option maxRecDepth 100000 in
/-- C10 (stable ordering), refuted.  On seventeen items of size `(1, 1)` the `std::sort`
of libstdc++ does not keep the input order: the range has more than 16 elements, so
`std::__introsort_loop` partitions it, which first swaps the middle element to the front
and then swaps elements from both ends.  Item 9 comes first, and `bin_packing` places
item 9 at `(0, 0)`, item 17 at `(1, 0)` and item 1 only at `(9, 0)`. -/
theorem std_sort_not_stable :
    (std_sort seventeen_items).map (·.id) =
        [9, 17, 16, 15, 14, 13, 12, 11, 10, 1, 8, 7, 6, 5, 4, 3, 2] ∧
      gnu_sort.run seventeen_items = std_sort seventeen_items ∧
      ¬ keeps_input_order gnu_sort seventeen_items ∧
      bin_packing gnu_sort 19 seventeen_items ⟨17, 1⟩ =
        some (.ok [⟨⟨17, 1⟩, seventeen_placed⟩]) := by
  have hsort : std_sort seventeen_items =
      [mkItem 1 1 9, mkItem 1 1 17, mkItem 1 1 16, mkItem 1 1 15, mkItem 1 1 14,
        mkItem 1 1 13, mkItem 1 1 12, mkItem 1 1 11, mkItem 1 1 10, mkItem 1 1 1,
        mkItem 1 1 8, mkItem 1 1 7, mkItem 1 1 6, mkItem 1 1 5, mkItem 1 1 4,
        mkItem 1 1 3, mkItem 1 1 2] := by decide
  have hrun : gnu_sort.run seventeen_items = std_sort seventeen_items := by
    have hguard : (std_sort seventeen_items).Perm seventeen_items ∧
        sort_ordered (std_sort seventeen_items) := by
      rw [hsort]; decide
    show gnu_sort_run seventeen_items = std_sort seventeen_items
    unfold gnu_sort_run
    exact if_pos hguard
  refine ⟨by rw [hsort]; rfl, hrun, ?_, ?_⟩
  · intro h
    have h1 := h ⟨1, 1⟩
    rw [hrun, hsort] at h1
    revert h1
    decide
  · unfold bin_packing
    rw [hrun, hsort]
    rfl

/-- C10 as amended.  The ordering step of `bin_packing` orders the items by decreasing
height, then decreasing width, and this fixes the sequence of sizes in which the items
are processed: it is ordered, and it is the same whatever `std::sort` does with items
equal in both height and width. -/
theorem sort_sizes_determined (sort sort' : StdSort) (l : List Item) :
    ((sort.run l).map (·.rect.size)).Pairwise size_order ∧
      (sort.run l).map (·.rect.size) = (sort'.run l).map (·.rect.size) := by
  refine ⟨sorted_sizes sort l, ?_⟩
  have hperm : ((sort.run l).map (·.rect.size)).Perm ((sort'.run l).map (·.rect.size)) :=
    ((sort.perm l).trans (sort'.perm l).symm).map _
  exact List.eq_of_perm_of_sorted hperm (sorted_sizes sort l) (sorted_sizes sort' l)

/-! ## The `throw` of `bin_packing` is never reached -/

theorem pack_step_not_error (fuel : Nat) (binSize : Vec2) (bins : List Bin) (item : Item)
    (msg : String) : pack_step fuel binSize bins item ≠ some (.error msg) := by
  unfold pack_step
  split
  · simp
  · simp
  · cases fuel with
    | zero => simp [find_placement, scan_y]
    | succ k => rw [find_placement_empty]; simp

theorem pack_items_not_error (fuel : Nat) (binSize : Vec2) :
    ∀ (l : List Item) (bins : List Bin) (msg : String),
      pack_items fuel binSize l bins ≠ some (.error msg) := by
  intro l
  induction l with
  | nil => intro bins msg; simp [pack_items]
  | cons item rest ih =>
    intro bins msg
    rw [pack_items]
    split
    · simp
    · rename_i m hm
      exact absurd hm (pack_step_not_error fuel binSize bins item m)
    · exact ih _ msg

theorem bin_packing_never_throws (sort : StdSort) (fuel : Nat) (items : List Item)
    (binSize : Vec2) (msg : String) :
    bin_packing sort fuel items binSize ≠ some (.error msg) :=
  pack_items_not_error fuel binSize _ _ msg

/-! ## Containment and separation on the integers, when every item fits the bin -/

theorem pack_items_induction_mem {fuel : Nat} {binSize : Vec2}
    (I : List Item → List Bin → Prop) :
    ∀ (l : List Item),
      (∀ done bins item bins', item ∈ l → I done bins →
        pack_step fuel binSize bins item = some (.ok bins') → I (done ++ [item]) bins') →
      ∀ (done : List Item) (bins out : List Bin), I done bins →
        pack_items fuel binSize l bins = some (.ok out) → I (done ++ l) out := by
  intro l
  induction l with
  | nil =>
    intro _ done bins out hI h
    simp only [pack_items] at h
    injection h with h; injection h with h
    subst h; simpa using hI
  | cons item rest ih =>
    intro hstep done bins out hI h
    rw [pack_items] at h
    split at h
    · simp at h
    · simp at h
    · rename_i bins' hs
      have := ih (fun d b i b' hi => hstep d b i b' (List.mem_cons_of_mem _ hi))
        (done ++ [item]) bins' out
        (hstep done bins item bins' (List.mem_cons_self _ _) hI hs) h
      simpa using this

theorem separated_comm {r1 r2 : Rect} (h : separated r1 r2) : separated r2 r1 := by
  unfold separated at *; omega

theorem packed_exactly_push {fuel : Nat} {binSize : Vec2} {bin : Bin} {item : Item}
    {p : Vec2} (hwf : binSize.wf) (hx : item.rect.size.x ≤ binSize.x)
    (hy : item.rect.size.y ≤ binSize.y) (hb : packed_exactly binSize bin)
    (h : find_placement fuel bin item.rect.size = some (some p)) :
    packed_exactly binSize (bin.push (place_item item p)) := by
  obtain ⟨e, hin, hpw⟩ := hb
  subst e
  obtain ⟨h1, h2, h3⟩ := find_placement_inside_separated hwf hin hx hy h
  refine ⟨rfl, ?_, ?_⟩
  · intro it hit
    simp only [Bin.push, List.mem_append, List.mem_singleton] at hit
    rcases hit with hit | hit
    · exact hin it hit
    · subst hit; exact ⟨h1, h2⟩
  · simp only [Bin.push]
    rw [List.pairwise_append]
    refine ⟨hpw, List.pairwise_singleton _ _, ?_⟩
    intro a ha b hb
    rw [List.mem_singleton] at hb
    subst hb
    exact separated_comm (h3 a ha)

/-- When the bin size is a `uint32_t` pair and no item is wider or higher than the bin,
every bin returned by `bin_packing` has the given size, holds its items inside it, and
holds no two items that overlap, all on the integers. -/
theorem bin_packing_exact_of_fit (sort : StdSort) (fuel : Nat) (items : List Item)
    (binSize : Vec2) (bins : List Bin) (hwf : binSize.wf)
    (hfit : ∀ it ∈ items, it.rect.size.x ≤ binSize.x ∧ it.rect.size.y ≤ binSize.y)
    (h : bin_packing sort fuel items binSize = some (.ok bins)) :
    ∀ bin ∈ bins, packed_exactly binSize bin := by
  have := pack_items_induction_mem (fun _ bs => ∀ b ∈ bs, packed_exactly binSize b)
    (sort.run items) ?_ [] [] bins (by simp) h
  · exact this
  · intro done bs item bs' hmem hI hs
    have hit := hfit item ((sort.perm items).mem_iff.1 hmem)
    exact pack_step_forall (packed_exactly binSize) (packed_exactly binSize) (fun _ hb => hb)
      (fun p hp => packed_exactly_push hwf hit.1 hit.2
        ⟨rfl, by simp, List.Pairwise.nil⟩ hp)
      (fun bin p hb hp => packed_exactly_push hwf hit.1 hit.2 hb hp) hI hs

/-- With two items of width `4294967295` and bins of width 5, `bin_packing` returns one
bin with the items at `x = 0` and `x = 1`: the helper `no_overlap` passes, because
`1 + 4294967295` wraps around to 0, and on the integers the two rectangles overlap. -/
theorem oversize_items_overlap_exactly :
    bin_packing insertion_sort 3 [mkItem 4294967295 1 1, mkItem 4294967295 1 2] ⟨5, 1⟩ =
        some (.ok [⟨⟨5, 1⟩, [⟨⟨⟨0, 0⟩, ⟨4294967295, 1⟩⟩, 1⟩, ⟨⟨⟨1, 0⟩, ⟨4294967295, 1⟩⟩, 2⟩]⟩]) ∧
      no_overlap ⟨⟨0, 0⟩, ⟨4294967295, 1⟩⟩ ⟨⟨1, 0⟩, ⟨4294967295, 1⟩⟩ = true ∧
      ¬ separated ⟨⟨0, 0⟩, ⟨4294967295, 1⟩⟩ ⟨⟨1, 0⟩, ⟨4294967295, 1⟩⟩ :=
  ⟨by rfl, by decide, by decide⟩

/-- In a bin whose items lie inside it, and for an item size that does not exceed the bin
size, the test of the source on `uint32_t` operands and the test on the integers accept
the same candidates of the scan. -/
theorem valid_position_iff_separated {bin : Bin} {itemSize q : Vec2} (hwf : bin.size.wf)
    (hin : ∀ it ∈ bin.items, inside bin.size it.rect)
    (hx : itemSize.x ≤ bin.size.x) (hy : itemSize.y ≤ bin.size.y) :
    valid_position bin itemSize q ↔
      q.x ≤ bin.size.x - itemSize.x ∧ q.y ≤ bin.size.y - itemSize.y ∧
        ∀ it ∈ bin.items, separated ⟨q, itemSize⟩ it.rect := by
  have hbx : bin.size.x < 4294967296 := hwf.1
  have hby : bin.size.y < 4294967296 := hwf.2
  unfold valid_position
  constructor
  · rintro ⟨h1, h2, h3⟩
    refine ⟨h1, h2, fun it hit => ?_⟩
    have hsep := h3 it hit
    have hit' := hin it hit
    unfold no_overlap add32 at hsep
    simp only [Bool.or_eq_true, decide_eq_true_eq] at hsep
    unfold inside at hit'
    unfold separated
    simp only at hsep ⊢
    omega
  · rintro ⟨h1, h2, h3⟩
    refine ⟨h1, h2, fun it hit => ?_⟩
    have hsep := h3 it hit
    have hit' := hin it hit
    unfold no_overlap add32
    simp only [Bool.or_eq_true, decide_eq_true_eq]
    unfold inside at hit'
    unfold separated at hsep
    simp only at hsep ⊢
    omega

/-! ## `bin_packing` returns when every item fits the bin -/

theorem try_existing_total {fuel : Nat} {binSize : Vec2} {item : Item} (hwf : binSize.wf)
    (hx : item.rect.size.x ≤ binSize.x) (hy : item.rect.size.y ≤ binSize.y)
    (hfuel : binSize.x + binSize.y + 2 ≤ fuel) :
    ∀ bins : List Bin, (∀ b ∈ bins, b.size = binSize) →
      ∃ r, try_existing fuel item bins = some r := by
  intro bins
  induction bins with
  | nil => intro _; exact ⟨none, rfl⟩
  | cons b rest ih =>
    intro hsz
    have hb : b.size = binSize := hsz b (by simp)
    obtain ⟨r, hr, _⟩ := find_placement_result b item.rect.size (hb ▸ hwf) (hb ▸ hx) (hb ▸ hy)
    have hfp := hr fuel (by rw [hb]; exact hfuel)
    rw [try_existing, hfp]
    cases r with
    | some p => exact ⟨_, rfl⟩
    | none =>
      obtain ⟨r', hr'⟩ := ih (fun c hc => hsz c (by simp [hc]))
      rw [hr']
      cases r' with
      | none => exact ⟨_, rfl⟩
      | some bs => exact ⟨_, rfl⟩

theorem pack_step_total {fuel : Nat} {binSize : Vec2} {item : Item} {bins : List Bin}
    (hwf : binSize.wf) (hx : item.rect.size.x ≤ binSize.x)
    (hy : item.rect.size.y ≤ binSize.y) (hfuel : binSize.x + binSize.y + 2 ≤ fuel)
    (hsz : ∀ b ∈ bins, b.size = binSize) :
    ∃ bins', pack_step fuel binSize bins item = some (.ok bins') := by
  obtain ⟨r, hr⟩ := try_existing_total hwf hx hy hfuel bins hsz
  obtain ⟨k, rfl⟩ : ∃ k, fuel = k + 1 := ⟨fuel - 1, by omega⟩
  unfold pack_step
  rw [hr]
  cases r with
  | some bs => exact ⟨_, rfl⟩
  | none =>
    simp only [find_placement_empty]
    exact ⟨_, rfl⟩

theorem pack_step_sizes {fuel : Nat} {binSize : Vec2} {item : Item} {bins bins' : List Bin}
    (hsz : ∀ b ∈ bins, b.size = binSize)
    (h : pack_step fuel binSize bins item = some (.ok bins')) :
    ∀ b ∈ bins', b.size = binSize :=
  pack_step_forall (fun b => b.size = binSize) (fun b => b.size = binSize) (fun _ hb => hb)
    (fun _ _ => rfl) (fun _ _ hb _ => hb) hsz h

theorem pack_items_total {fuel : Nat} {binSize : Vec2} (hwf : binSize.wf)
    (hfuel : binSize.x + binSize.y + 2 ≤ fuel) :
    ∀ (l : List Item) (bins : List Bin),
      (∀ it ∈ l, it.rect.size.x ≤ binSize.x ∧ it.rect.size.y ≤ binSize.y) →
      (∀ b ∈ bins, b.size = binSize) →
      ∃ out, pack_items fuel binSize l bins = some (.ok out) := by
  intro l
  induction l with
  | nil => intro bins _ _; exact ⟨bins, rfl⟩
  | cons item rest ih =>
    intro bins hfit hsz
    have hit := hfit item (by simp)
    obtain ⟨bins', hs⟩ := pack_step_total hwf hit.1 hit.2 hfuel hsz
    rw [pack_items, hs]
    exact ih bins' (fun it hi => hfit it (by simp [hi])) (pack_step_sizes hsz hs)

/-- When the bin size is a `uint32_t` pair and no item is wider or higher than the bin,
`bin_packing` returns a bin vector, for every fuel from `binSize.x + binSize.y + 2` on. -/
theorem bin_packing_returns_of_fit (sort : StdSort) (items : List Item) (binSize : Vec2)
    (hwf : binSize.wf)
    (hfit : ∀ it ∈ items, it.rect.size.x ≤ binSize.x ∧ it.rect.size.y ≤ binSize.y)
    (fuel : Nat) (hfuel : binSize.x + binSize.y + 2 ≤ fuel) :
    ∃ bins, bin_packing sort fuel items binSize = some (.ok bins) :=
  pack_items_total hwf hfuel (sort.run items) []
    (fun it hi => hfit it ((sort.perm items).mem_iff.1 hi)) (by simp)

/-! ## The empty input, bin sizes, the empty bin, zero-sized items -/

theorem StdSort.run_nil (sort : StdSort) : sort.run [] = [] :=
  List.perm_nil.1 (sort.perm [])

/-- C12 (empty input).  For every bin size, `bin_packing` on the empty item list returns
the empty bin vector, whatever the fuel: no loop is entered, no bin is opened and nothing
is thrown. -/
theorem bin_packing_empty (sort : StdSort) (fuel : Nat) (binSize : Vec2) :
    bin_packing sort fuel [] binSize = some (.ok []) := by
  unfold bin_packing
  rw [StdSort.run_nil]
  rfl

theorem pack_items_sizes {fuel : Nat} {binSize : Vec2} {l : List Item} {bins out : List Bin}
    (hbins : ∀ b ∈ bins, b.size = binSize)
    (h : pack_items fuel binSize l bins = some (.ok out)) : ∀ b ∈ out, b.size = binSize :=
  pack_items_induction (fun _ bs => ∀ b ∈ bs, b.size = binSize)
    (fun _ _ _ _ hI hs => pack_step_sizes hI hs) l [] bins out hbins h

/-- C13 (uniform bin size).  Whenever `bin_packing` returns, every bin of the result has
the size given as the argument `binSize`. -/
theorem bin_packing_bin_sizes (sort : StdSort) (fuel : Nat) (items : List Item)
    (binSize : Vec2) (bins : List Bin)
    (h : bin_packing sort fuel items binSize = some (.ok bins)) :
    ∀ bin ∈ bins, bin.size = binSize := by
  have hnil : ∀ b ∈ ([] : List Bin), b.size = binSize := by simp
  exact pack_items_sizes hnil h

theorem bin_packing_bin_sizes_witness :
    bin_packing insertion_sort 10 valid_configuration_items ⟨5, 5⟩ =
        some (.ok valid_configuration_bins) ∧
      ∀ bin ∈ valid_configuration_bins, bin.size = ⟨5, 5⟩ :=
  ⟨by rfl, bin_packing_bin_sizes insertion_sort 10 valid_configuration_items ⟨5, 5⟩
    valid_configuration_bins (by rfl)⟩

/-- C17 (the empty bin admits everything).  For every bin size and every item size,
`find_placement` on a bin that holds no items returns the position `(0, 0)`, with one
unit of fuel or more: the loop bounds are `uint32_t` differences, so both loops are
entered at `0`, and `std::all_of` over no rectangles is true. -/
theorem find_placement_empty_bin (fuel : Nat) (binSize itemSize : Vec2) :
    find_placement (fuel + 1) ⟨binSize, []⟩ itemSize = some (some ⟨0, 0⟩) :=
  find_placement_empty fuel binSize itemSize

/-- C15 (zero-sized items).  For every bin, whatever items it holds, and every item size
of width 0 or of height 0, `find_placement` returns the position `(0, 0)`, with one unit
of fuel or more. -/
theorem find_placement_zero_size (fuel : Nat) (bin : Bin) (itemSize : Vec2)
    (h : itemSize.x = 0 ∨ itemSize.y = 0) :
    find_placement (fuel + 1) bin itemSize = some (some ⟨0, 0⟩) :=
  find_placement_of_fits_origin fuel bin itemSize
    (fits_origin_of_zero (bin.items.map (·.rect)) itemSize h)

theorem find_placement_zero_size_witness :
    ((⟨0, 3⟩ : Vec2).x = 0 ∨ (⟨0, 3⟩ : Vec2).y = 0) ∧
      find_placement (0 + 1) ⟨⟨5, 5⟩, [⟨⟨⟨0, 0⟩, ⟨5, 5⟩⟩, 7⟩]⟩ ⟨0, 3⟩ = some (some ⟨0, 0⟩) :=
  ⟨Or.inl rfl, find_placement_zero_size 0 ⟨⟨5, 5⟩, [⟨⟨⟨0, 0⟩, ⟨5, 5⟩⟩, 7⟩]⟩ ⟨0, 3⟩ (Or.inl rfl)⟩

/-! ## Bins only grow -/

/-- C14 (bins only grow by appending).  An iteration of the item loop of `bin_packing`
that ends with the bin vector `bins'` either pushed the placed item at the back of one
bin and left the bins before and after it, and so the number of bins, as they were, or
left every bin as it was and appended one new bin that holds the placed item only.  The
placed item is the processed item with its position rewritten. -/
theorem pack_step_appends (fuel : Nat) (binSize : Vec2) (bins bins' : List Bin) (item : Item)
    (h : pack_step fuel binSize bins item = some (.ok bins')) :
    ∃ p : Vec2,
      (∃ pre bin post, bins = pre ++ bin :: post ∧
        bins' = pre ++ ⟨bin.size, bin.items ++ [place_item item p]⟩ :: post ∧
        bins'.length = bins.length) ∨
      bins' = bins ++ [⟨binSize, [place_item item p]⟩] := by
  rcases pack_step_ok h with ⟨pre, bin, post, p, e1, _, _, e4⟩ | ⟨_, p, _, e3⟩
  · refine ⟨p, Or.inl ⟨pre, bin, post, e1, e4, ?_⟩⟩
    rw [e1, e4]
    simp
  · exact ⟨p, Or.inr e3⟩

theorem pack_step_appends_witness :
    pack_step 12 ⟨5, 5⟩ two_bins (mkItem 3 3 2) = some (.ok two_bins_after) ∧
      ∃ p : Vec2,
        (∃ pre bin post, two_bins = pre ++ bin :: post ∧
          two_bins_after =
            pre ++ ⟨bin.size, bin.items ++ [place_item (mkItem 3 3 2) p]⟩ :: post ∧
          two_bins_after.length = two_bins.length) ∨
        two_bins_after = two_bins ++ [⟨⟨5, 5⟩, [place_item (mkItem 3 3 2) p]⟩] :=
  have h : pack_step 12 ⟨5, 5⟩ two_bins (mkItem 3 3 2) = some (.ok two_bins_after) := by
    have h0 : find_placement 12 ⟨⟨5, 5⟩, [⟨⟨⟨0, 0⟩, ⟨5, 5⟩⟩, 7⟩]⟩ ⟨3, 3⟩ = some none := by
      decide
    have h1 : find_placement 12 one_item_bin ⟨3, 3⟩ = some (some ⟨1, 0⟩) := by decide
    simp only [pack_step, two_bins, try_existing, mkItem, h0, h1]
    rfl
  ⟨h, pack_step_appends 12 ⟨5, 5⟩ two_bins two_bins_after (mkItem 3 3 2) h⟩

/-! ## Every bin holds an item -/

theorem length_le_all_items :
    ∀ bins : List Bin, (∀ b ∈ bins, b.items ≠ []) → bins.length ≤ (all_items bins).length := by
  intro bins
  induction bins with
  | nil => intro _; simp
  | cons b rest ih =>
    intro h
    have hb : 1 ≤ b.items.length := List.length_pos.2 (h b (by simp))
    have hrest := ih (fun c hc => h c (by simp [hc]))
    simp only [all_items, List.map_cons, List.flatten_cons, List.length_append,
      List.length_cons] at hrest ⊢
    omega

theorem pack_items_nonempty {fuel : Nat} {binSize : Vec2} {l : List Item}
    {bins out : List Bin} (hbins : ∀ b ∈ bins, b.items ≠ [])
    (h : pack_items fuel binSize l bins = some (.ok out)) : ∀ b ∈ out, b.items ≠ [] := by
  refine pack_items_induction (fun _ bs => ∀ b ∈ bs, b.items ≠ []) ?_ l [] bins out hbins h
  intro done bs item bs' hI hs
  exact pack_step_forall (fun b => b.items ≠ []) (fun b => b.items ≠ []) (fun _ hb => hb)
    (fun p _ => by simp [Bin.push]) (fun bin p _ _ => by simp [Bin.push]) hI hs

/-- C18 (no empty bin).  Whenever `bin_packing` returns, every bin of the result holds at
least one item, and the number of bins is at most the number of input items. -/
theorem bin_packing_bins_nonempty (sort : StdSort) (fuel : Nat) (items : List Item)
    (binSize : Vec2) (bins : List Bin)
    (h : bin_packing sort fuel items binSize = some (.ok bins)) :
    (∀ bin ∈ bins, bin.items ≠ []) ∧ bins.length ≤ items.length := by
  have hnil : ∀ b ∈ ([] : List Bin), b.items ≠ [] := by simp
  have hne := pack_items_nonempty hnil h
  refine ⟨hne, ?_⟩
  have h1 := length_le_all_items bins hne
  have h2 := (pack_items_keys h).length_eq
  have h3 := (sort.perm items).length_eq
  simp only [List.length_map] at h2
  omega

theorem bin_packing_bins_nonempty_witness :
    bin_packing insertion_sort 10 valid_configuration_items ⟨5, 5⟩ =
        some (.ok valid_configuration_bins) ∧
      (∀ bin ∈ valid_configuration_bins, bin.items ≠ []) ∧
      valid_configuration_bins.length ≤ valid_configuration_items.length :=
  ⟨by rfl, bin_packing_bins_nonempty insertion_sort 10 valid_configuration_items ⟨5, 5⟩
    valid_configuration_bins (by rfl)⟩

/-! ## The comparator -/

/-- C20 (strict weak ordering).  The comparator given to `std::sort` is irreflexive and
transitive; two items are incomparable exactly when they have equal height and equal
width; and incomparability is transitive. -/
theorem sort_cmp_strict_weak :
    (∀ a : Item, ¬ sort_cmp a a) ∧
    (∀ a b c : Item, sort_cmp a b → sort_cmp b c → sort_cmp a c) ∧
    (∀ a b : Item, (¬ sort_cmp a b ∧ ¬ sort_cmp b a) ↔
      (a.rect.size.y = b.rect.size.y ∧ a.rect.size.x = b.rect.size.x)) ∧
    (∀ a b c : Item, (¬ sort_cmp a b ∧ ¬ sort_cmp b a) → (¬ sort_cmp b c ∧ ¬ sort_cmp c b) →
      (¬ sort_cmp a c ∧ ¬ sort_cmp c a)) := by
  refine ⟨?_, ?_, ?_, ?_⟩
  · intro a; unfold sort_cmp; omega
  · intro a b c; unfold sort_cmp; omega
  · intro a b; unfold sort_cmp; omega
  · intro a b c; unfold sort_cmp; omega

/-! ## Items as large as the bin -/

theorem find_placement_filled (fuel : Nat) {binSize : Vec2} {it : Item} (hwf : binSize.wf)
    (hx : 1 ≤ binSize.x) (hy : 1 ≤ binSize.y) (hit : it.rect = ⟨⟨0, 0⟩, binSize⟩) :
    find_placement (fuel + 2) ⟨binSize, [it]⟩ binSize = some none := by
  have hbx : binSize.x < 4294967296 := hwf.1
  have hby : binSize.y < 4294967296 := hwf.2
  have h0x : sub32 binSize.x binSize.x = 0 := by unfold sub32; omega
  have h0y : sub32 binSize.y binSize.y = 0 := by unfold sub32; omega
  have hax : add32 0 binSize.x = binSize.x := by unfold add32; omega
  have hay : add32 0 binSize.y = binSize.y := by unfold add32; omega
  have hf : fits [it.rect] ⟨0, 0⟩ binSize = false := by
    rw [hit]
    simp only [fits, List.all_cons, List.all_nil, noOverlap, hax, hay, Bool.and_true]
    simp only [Bool.or_eq_false_iff, decide_eq_false_iff_not]
    omega
  have h1 : add32 0 1 = 1 := by decide
  simp [find_placement, scan_y, scan_x, h0x, h0y, hf, h1]

theorem pack_items_same_size (fuel : Nat) {binSize : Vec2} (hwf : binSize.wf)
    (hx : 1 ≤ binSize.x) (hy : 1 ≤ binSize.y) :
    ∀ (l : List Item) (bins : List Bin), (∀ it ∈ l, it.rect.size = binSize) →
      (∀ b ∈ bins, ∃ it : Item, b = ⟨binSize, [it]⟩ ∧ it.rect = ⟨⟨0, 0⟩, binSize⟩) →
      pack_items (fuel + 2) binSize l bins =
        some (.ok (bins ++ l.map (single_bin binSize))) := by
  intro l
  induction l with
  | nil => intro bins _ _; simp [pack_items]
  | cons item rest ih =>
    intro bins hsz hbins
    have hitem : item.rect.size = binSize := hsz item (by simp)
    have hnone : ∀ b ∈ bins, find_placement (fuel + 2) b item.rect.size = some none := by
      intro b hb
      obtain ⟨it, rfl, hit⟩ := hbins b hb
      rw [hitem]
      exact find_placement_filled fuel hwf hx hy hit
    have hstep : pack_step (fuel + 2) binSize bins item =
        some (.ok (bins ++ [single_bin binSize item])) := by
      unfold pack_step
      rw [try_existing_all_none bins hnone]
      simp only [find_placement_empty]
      rfl
    rw [pack_items, hstep]
    simp only
    rw [ih (bins ++ [single_bin binSize item]) (fun it hi => hsz it (by simp [hi]))]
    · simp
    · intro b hb
      rcases List.mem_append.1 hb with hb | hb
      · exact hbins b hb
      · rw [List.mem_singleton] at hb
        refine ⟨place_item item ⟨0, 0⟩, hb, ?_⟩
        simp [place_item, hitem]

/-- C11 (items as large as the bin).  For a bin size of width and height at least 1 and
a list of `n` items, each of size equal to the bin size, `bin_packing` returns, with
two units of fuel or more, exactly `n` bins, and each bin holds exactly one item, at
position `(0, 0)`. -/
theorem bin_packing_full_items (sort : StdSort) (fuel : Nat) (items : List Item)
    (binSize : Vec2) (hwf : binSize.wf) (hx : 1 ≤ binSize.x) (hy : 1 ≤ binSize.y)
    (hsz : ∀ it ∈ items, it.rect.size = binSize) :
    ∃ bins, bin_packing sort (fuel + 2) items binSize = some (.ok bins) ∧
      bins.length = items.length ∧
      ∀ bin ∈ bins, ∃ it : Item, bin.items = [it] ∧ it.rect.position = ⟨0, 0⟩ := by
  have hrun := pack_items_same_size fuel hwf hx hy (sort.run items) []
    (fun it hi => hsz it ((sort.perm items).mem_iff.1 hi)) (by simp)
  refine ⟨_, hrun, ?_, ?_⟩
  · simpa using (sort.perm items).length_eq
  · intro bin hbin
    simp only [List.nil_append, List.mem_map] at hbin
    obtain ⟨it, _, rfl⟩ := hbin
    exact ⟨place_item it ⟨0, 0⟩, rfl, rfl⟩

theorem bin_packing_full_items_witness :
    ((⟨5, 5⟩ : Vec2).wf ∧ 1 ≤ (⟨5, 5⟩ : Vec2).x ∧ 1 ≤ (⟨5, 5⟩ : Vec2).y ∧
        ∀ it ∈ three_full_items, it.rect.size = ⟨5, 5⟩) ∧
      ∃ bins, bin_packing insertion_sort (0 + 2) three_full_items ⟨5, 5⟩ = some (.ok bins) ∧
        bins.length = three_full_items.length ∧
        ∀ bin ∈ bins, ∃ it : Item, bin.items = [it] ∧ it.rect.position = ⟨0, 0⟩ :=
  ⟨⟨by decide, by decide, by decide, by decide⟩,
    bin_packing_full_items insertion_sort 0 three_full_items ⟨5, 5⟩ (by decide) (by decide)
      (by decide) (by decide)⟩

/-! ## Full-width stacking -/

theorem total_height_cons (item : Item) (l : List Item) :
    total_height (item :: l) = item.rect.size.y + total_height l := by
  simp [total_height]

theorem total_height_append_singleton (l : List Item) (item : Item) :
    total_height (l ++ [item]) = total_height l + item.rect.size.y := by
  simp [total_height]

theorem total_height_perm {l l' : List Item} (h : l.Perm l') :
    total_height l = total_height l' :=
  (h.map _).sum_eq

theorem stack_placement {fuel : Nat} {bin : Bin} (itemSize : Vec2) (hwf : bin.size.wf)
    (hst : stacked bin) (hw : itemSize.x = bin.size.x)
    (hh : total_height bin.items + itemSize.y ≤ bin.size.y)
    (hfuel : bin.size.x + bin.size.y + 2 ≤ fuel) :
    ∃ p, find_placement fuel bin itemSize = some (some p) ∧ p.y ≤ total_height bin.items := by
  have hby : bin.size.y < 4294967296 := hwf.2
  obtain ⟨r, hr, hmin, hnone⟩ := find_placement_result bin itemSize hwf (by omega) (by omega)
  have hv : valid_position bin itemSize ⟨0, total_height bin.items⟩ := by
    refine ⟨Nat.zero_le _, by simp only; omega, fun it hit => ?_⟩
    have := hst it hit
    unfold no_overlap add32
    simp only [Bool.or_eq_true, decide_eq_true_eq]
    omega
  cases r with
  | none => exact absurd hv (hnone.1 rfl _)
  | some p =>
    refine ⟨p, hr fuel hfuel, ?_⟩
    have hle := (hmin p rfl).2 _ hv
    unfold row_major_le at hle
    simp only at hle
    omega

theorem pack_items_stack {fuel : Nat} {binSize : Vec2} (hwf : binSize.wf)
    (hfuel : binSize.x + binSize.y + 2 ≤ fuel) :
    ∀ (l : List Item) (bin : Bin), bin.size = binSize → stacked bin →
      (∀ it ∈ l, it.rect.size.x = binSize.x) →
      total_height bin.items + total_height l ≤ binSize.y →
      ∃ bin', pack_items fuel binSize l [bin] = some (.ok [bin']) := by
  intro l
  induction l with
  | nil => intro bin _ _ _ _; exact ⟨bin, rfl⟩
  | cons item rest ih =>
    intro bin hsz hst hw hh
    rw [total_height_cons] at hh
    subst hsz
    obtain ⟨p, hp, hpy⟩ := stack_placement item.rect.size hwf hst
      (hw item (by simp)) (by omega) hfuel
    have hstep : pack_step fuel bin.size [bin] item =
        some (.ok [bin.push (place_item item p)]) := by
      simp [pack_step, try_existing, hp]
    rw [pack_items, hstep]
    refine ih (bin.push (place_item item p)) rfl ?_ (fun it hi => hw it (by simp [hi])) ?_
    · intro it hit
      simp only [Bin.push, List.mem_append, List.mem_singleton] at hit
      simp only [Bin.push, total_height_append_singleton]
      rcases hit with hit | hit
      · have := hst it hit
        simp only [place_item]
        omega
      · subst hit
        simp only [place_item]
        omega
    · simp only [Bin.push, total_height_append_singleton, place_item]
      omega

theorem bin_packing_stack (sort : StdSort) (items : List Item) (binSize : Vec2)
    (hwf : binSize.wf) (hne : items ≠ [])
    (hw : ∀ it ∈ items, it.rect.size.x = binSize.x)
    (hh : total_height items ≤ binSize.y)
    (fuel : Nat) (hfuel : binSize.x + binSize.y + 2 ≤ fuel) :
    ∃ bin, bin_packing sort fuel items binSize = some (.ok [bin]) ∧
      (bin.items.map item_key).Perm (items.map item_key) := by
  have hperm := sort.perm items
  have hth := total_height_perm hperm
  obtain ⟨k, rfl⟩ : ∃ k, fuel = k + 1 := ⟨fuel - 1, by omega⟩
  cases hrun : sort.run items with
  | nil =>
    rw [hrun] at hperm
    exact absurd (List.nil_perm.1 hperm) hne
  | cons first rest =>
    rw [hrun] at hperm hth
    rw [total_height_cons] at hth
    have hstep : pack_step (k + 1) binSize [] first =
        some (.ok [single_bin binSize first]) := by
      simp only [pack_step, try_existing, find_placement_empty]
      rfl
    obtain ⟨bin, hbin⟩ := pack_items_stack hwf hfuel rest (single_bin binSize first) rfl
      (by
        intro it hit
        simp only [single_bin, List.mem_singleton] at hit
        subst hit
        simp [single_bin, place_item, total_height])
      (fun it hi => hw it (hperm.mem_iff.1 (by simp [hi])))
      (by
        have h0 : total_height ([] : List Item) = 0 := rfl
        simp only [single_bin, total_height_cons, place_item, h0]
        omega)
    have hall : pack_items (k + 1) binSize (sort.run items) [] = some (.ok [bin]) := by
      rw [hrun, pack_items, hstep]
      exact hbin
    refine ⟨bin, hall, ?_⟩
    have hkeys := pack_items_keys hall
    simp only [all_items, List.map_cons, List.map_nil, List.flatten_cons, List.flatten_nil,
      List.append_nil] at hkeys
    exact hkeys.trans ((sort.perm items).map item_key)

/-- C16 (full-width stacking).  For a non-empty list of items that are all as wide as
the bin and whose heights sum to at most the height of the bin, `bin_packing` returns,
for every fuel from `binSize.x + binSize.y + 2` on, exactly one bin, and the bin holds
all the items: the (identifier, size) pairs of its items are a permutation of those of
the input. -/
theorem bin_packing_full_width (sort : StdSort) (items : List Item) (binSize : Vec2)
    (hwf : binSize.wf) (hne : items ≠ [])
    (hw : ∀ it ∈ items, it.rect.size.x = binSize.x)
    (hh : total_height items ≤ binSize.y)
    (fuel : Nat) (hfuel : binSize.x + binSize.y + 2 ≤ fuel) :
    ∃ bin, bin_packing sort fuel items binSize = some (.ok [bin]) ∧
      (bin.items.map item_key).Perm (items.map item_key) :=
  bin_packing_stack sort items binSize hwf hne hw hh fuel hfuel

theorem bin_packing_full_width_witness :
    ((⟨10, 5⟩ : Vec2).wf ∧ full_width_items ≠ [] ∧
        (∀ it ∈ full_width_items, it.rect.size.x = (⟨10, 5⟩ : Vec2).x) ∧
        total_height full_width_items ≤ (⟨10, 5⟩ : Vec2).y ∧
        (⟨10, 5⟩ : Vec2).x + (⟨10, 5⟩ : Vec2).y + 2 ≤ 17) ∧
      ∃ bin, bin_packing insertion_sort 17 full_width_items ⟨10, 5⟩ = some (.ok [bin]) ∧
        (bin.items.map item_key).Perm (full_width_items.map item_key) :=
  ⟨⟨by decide, by decide, by decide, by decide, by decide⟩,
    bin_packing_full_width insertion_sort full_width_items ⟨10, 5⟩ (by decide) (by decide)
      (by decide) (by decide) 17 (by decide)⟩

/-! ## The compositor and the canvas -/

/-- When `W * H * 4` is a `uint32_t` value, the program computes the length of the
canvas and the index of every pixel of an item inside the bin without wrap-around, and
the four bytes written at the index lie inside the buffer. -/
theorem dst_idx_in_small_canvas {binSize : Vec2} {item : Item} {x y : Nat}
    (hlen : binSize.x * binSize.y * 4 < 4294967296)
    (hin : inside binSize item.rect) (hx : x < item.rect.size.x)
    (hy : y < item.rect.size.y) :
    dst_idx binSize item x y =
        ((item.rect.position.y + y) * binSize.x + (item.rect.position.x + x)) * 4 ∧
      bin_image_len binSize = binSize.x * binSize.y * 4 ∧
      dst_idx binSize item x y + 4 ≤ bin_image_len binSize := by
  obtain ⟨h1, h2⟩ := hin
  have hrow : item.rect.position.y + y + 1 ≤ binSize.y := by omega
  have hcol : item.rect.position.x + x + 1 ≤ binSize.x := by omega
  have hmul : (item.rect.position.y + y + 1) * binSize.x ≤ binSize.y * binSize.x :=
    Nat.mul_le_mul_right _ hrow
  have hexp : (item.rect.position.y + y + 1) * binSize.x =
      (item.rect.position.y + y) * binSize.x + binSize.x := by ring
  have hcomm : binSize.y * binSize.x = binSize.x * binSize.y := Nat.mul_comm _ _
  have hy1 : 1 * binSize.y ≤ binSize.x * binSize.y := Nat.mul_le_mul_right _ (by omega)
  have e1 : add32 item.rect.position.y y = item.rect.position.y + y := by
    unfold add32; omega
  have e2 : mul32 (item.rect.position.y + y) binSize.x =
      (item.rect.position.y + y) * binSize.x := by
    unfold mul32; omega
  have e3 : add32 item.rect.position.x x = item.rect.position.x + x := by
    unfold add32; omega
  have e4 : add32 ((item.rect.position.y + y) * binSize.x) (item.rect.position.x + x) =
      (item.rect.position.y + y) * binSize.x + (item.rect.position.x + x) := by
    unfold add32; omega
  have e5 : mul32 ((item.rect.position.y + y) * binSize.x + (item.rect.position.x + x)) 4 =
      ((item.rect.position.y + y) * binSize.x + (item.rect.position.x + x)) * 4 := by
    unfold mul32; omega
  have e6 : mul32 binSize.x binSize.y = binSize.x * binSize.y := by
    unfold mul32; omega
  have e7 : mul32 (binSize.x * binSize.y) 4 = binSize.x * binSize.y * 4 := by
    unfold mul32; omega
  have hd : dst_idx binSize item x y =
      ((item.rect.position.y + y) * binSize.x + (item.rect.position.x + x)) * 4 := by
    unfold dst_idx
    rw [e1, e2, e3, e4, e5]
  have hl : bin_image_len binSize = binSize.x * binSize.y * 4 := by
    unfold bin_image_len
    rw [e6, e7]
  refine ⟨hd, hl, ?_⟩
  rw [hd, hl]
  omega

/-- C19 (the compositor writes inside the canvas), evaluated where it fails.  With bins
of size `(32768, 32768)` and one item of size `(1, 1)`, `bin_packing` returns one bin with
the item at `(0, 0)`, inside the bin.  The length of `bin_image`, `32768 * 32768 * 4`
on `uint32_t` operands, wraps around to 0, and the index of the item's pixel `(0, 0)`
is 0: the four bytes copied there lie outside the buffer. -/
theorem dst_idx_outside_canvas (sort : StdSort) (fuel : Nat) :
    bin_packing sort (fuel + 1) [mkItem 1 1 0] ⟨32768, 32768⟩ =
        some (.ok [⟨⟨32768, 32768⟩, [mkItem 1 1 0]⟩]) ∧
      inside ⟨32768, 32768⟩ (mkItem 1 1 0).rect ∧
      bin_image_len ⟨32768, 32768⟩ = 0 ∧
      dst_idx ⟨32768, 32768⟩ (mkItem 1 1 0) 0 0 = 0 ∧
      ¬ (dst_idx ⟨32768, 32768⟩ (mkItem 1 1 0) 0 0 + 4 ≤ bin_image_len ⟨32768, 32768⟩) := by
  refine ⟨?_, by decide, by decide, by decide, by decide⟩
  simp [bin_packing, StdSort.run_singleton, pack_items, pack_step, try_existing,
    find_placement_empty, Bin.push, place_item, mkItem]

end atlas
